import Mathlib

/-!
# ietf_keywords_to_page: the CSV pivot and the keyword list

A shallow embedding of `ietf_keywords_to_page.go`.

* A Go `string` holding valid UTF-8 text is the list of its code points
  (`GoString`); `bytes` gives its UTF-8 bytes, so that the byte index
  `keyword[0]` and the byte-wise comparison of `sort.Strings` are taken on the
  bytes, as in Go.
* The functions of the Go standard library that `ReadCSV` calls
  (`encoding/csv`, `strings`, `unicode`) are embedded from their Go sources.
  The Unicode case and category tables are a parameter (`CaseTables`); on
  ASCII the library has explicit code paths, which are embedded as they are.
* `log.Fatal` and the two index expressions that can panic are the three
  ways `ReadCSV` can fail (`Failure`); logging is not modelled.
* A Go `map[string][]string` is an association list with distinct keys
  (`KwMap`); the order in which `range` visits the keys is an explicit
  argument of `GenerateHTML_result`.
* The template of `GenerateHTML` is embedded as its execution by
  `text/template`: the fixed texts between the actions, `with` (run on a
  non-empty slice), `range`, `if $index` and the printing of a string as it
  is. `mainOutput` is `main` from the text of the input file on.
-/

namespace IetfKeywords

deriving instance DecidableEq for Except

/-! ## Strings -/

/-- A Go string of valid UTF-8 text, as the sequence of its code points. -/
abbrev GoString := List Char

/-- UTF-8 encoding of one code point (`utf8.EncodeRune`). -/
def utf8EncodeRune (c : Char) : List Nat :=
  let r := c.toNat
  if r ≤ 0x7F then [r]
  else if r ≤ 0x7FF then [0xC0 + r / 0x40, 0x80 + r % 0x40]
  else if r ≤ 0xFFFF then [0xE0 + r / 0x1000, 0x80 + r / 0x40 % 0x40, 0x80 + r % 0x40]
  else [0xF0 + r / 0x40000, 0x80 + r / 0x1000 % 0x40, 0x80 + r / 0x40 % 0x40, 0x80 + r % 0x40]

/-- The bytes of a Go string. -/
def bytes (s : GoString) : List Nat :=
  s.flatMap utf8EncodeRune

/-- Go `s[0]`: the first byte of the string, `none` where Go panics with
index out of range. -/
def byteAt0 (s : GoString) : Option Nat :=
  (bytes s).head?

/-- Go `string(b)` for a byte `b`: the string holding the code point `b`. -/
def stringOfByte (b : Nat) : GoString :=
  [Char.ofNat b]

/-! ## Package unicode -/

/-- The tables of package `unicode` for code points above `MaxASCII`:
`unicode.To(UpperCase, r)`, `unicode.To(LowerCase, r)`,
`unicode.To(TitleCase, r)`, `unicode.IsLetter(r)` and `unicode.IsDigit(r)`. -/
structure CaseTables where
  toUpper : Char → Char
  toLower : Char → Char
  toTitle : Char → Char
  isLetter : Char → Bool
  isDigit : Char → Bool

/-- The tables on U+0080..U+00FF (Latin-1 Supplement), exact there; code points
from U+0100 on are left as caseless non-letters. The closed evaluations below
use texts within U+0000..U+00FF only. -/
def latin1Tables : CaseTables where
  toUpper c :=
    let r := c.toNat
    if r = 0xB5 then Char.ofNat 0x39C
    else if 0xE0 ≤ r ∧ r ≤ 0xFE ∧ r ≠ 0xF7 then Char.ofNat (r - 0x20)
    else if r = 0xFF then Char.ofNat 0x178
    else c
  toLower c :=
    let r := c.toNat
    if 0xC0 ≤ r ∧ r ≤ 0xDE ∧ r ≠ 0xD7 then Char.ofNat (r + 0x20) else c
  toTitle c :=
    let r := c.toNat
    if r = 0xB5 then Char.ofNat 0x39C
    else if 0xE0 ≤ r ∧ r ≤ 0xFE ∧ r ≠ 0xF7 then Char.ofNat (r - 0x20)
    else if r = 0xFF then Char.ofNat 0x178
    else c
  isLetter c :=
    let r := c.toNat
    decide (r = 0xAA ∨ r = 0xB5 ∨ r = 0xBA ∨ (0xC0 ≤ r ∧ r ≤ 0xFF ∧ r ≠ 0xD7 ∧ r ≠ 0xF7))
  isDigit _ := false

/-- Go `unicode.ToUpper`: `'a' <= r && r <= 'z'` is `0x61 ≤ r ∧ r ≤ 0x7A`. -/
def unicodeToUpper (U : CaseTables) (r : Char) : Char :=
  if r.toNat ≤ 0x7F then
    if 0x61 ≤ r.toNat ∧ r.toNat ≤ 0x7A then Char.ofNat (r.toNat - 0x20) else r
  else U.toUpper r

/-- Go `unicode.ToLower`: `'A' <= r && r <= 'Z'` is `0x41 ≤ r ∧ r ≤ 0x5A`. -/
def unicodeToLower (U : CaseTables) (r : Char) : Char :=
  if r.toNat ≤ 0x7F then
    if 0x41 ≤ r.toNat ∧ r.toNat ≤ 0x5A then Char.ofNat (r.toNat + 0x20) else r
  else U.toLower r

/-- Go `unicode.ToTitle`: title case is upper case for ASCII. -/
def unicodeToTitle (U : CaseTables) (r : Char) : Char :=
  if r.toNat ≤ 0x7F then
    if 0x61 ≤ r.toNat ∧ r.toNat ≤ 0x7A then Char.ofNat (r.toNat - 0x20) else r
  else U.toTitle r

/-- Go `unicode.IsSpace`: the Latin-1 cases, then the White_Space table. -/
def unicodeIsSpace (r : Char) : Bool :=
  let n := r.toNat
  if n ≤ 0xFF then
    decide (n = 0x09 ∨ n = 0x0A ∨ n = 0x0B ∨ n = 0x0C ∨ n = 0x0D ∨ n = 0x20 ∨ n = 0x85 ∨ n = 0xA0)
  else
    decide (n = 0x1680 ∨ (0x2000 ≤ n ∧ n ≤ 0x200A) ∨ n = 0x2028 ∨ n = 0x2029 ∨ n = 0x202F
      ∨ n = 0x205F ∨ n = 0x3000)

/-! ## Package strings -/

/-- Go `strings.Contains(s, "*")` and the like, for a one-character substring. -/
def Contains (s : GoString) (c : Char) : Bool :=
  decide (c ∈ s)

/-- Go `strings.Trim(s, cutset)` for a cutset of one character: the leading
and the trailing run of that character are removed. -/
def Trim (s : GoString) (cutset : Char) : GoString :=
  (s.rdropWhile (fun c => decide (c = cutset))).dropWhile (fun c => decide (c = cutset))

/-- Go `strings.TrimSpace`. -/
def TrimSpace (s : GoString) : GoString :=
  (s.dropWhile unicodeIsSpace).rdropWhile unicodeIsSpace

/-- Go `strings.ToUpper`. -/
def ToUpper (U : CaseTables) (s : GoString) : GoString :=
  s.map (unicodeToUpper U)

/-- Go `strings.ToLower`. -/
def ToLower (U : CaseTables) (s : GoString) : GoString :=
  s.map (unicodeToLower U)

/-- Go `strings.isSeparator`: ASCII alphanumerics (`0`-`9` is 0x30-0x39, `a`-`z`
is 0x61-0x7A, `A`-`Z` is 0x41-0x5A) and underscore (0x5F) are not separators;
above ASCII, letters and digits are not separators and spaces are. -/
def isSeparator (U : CaseTables) (r : Char) : Bool :=
  if r.toNat ≤ 0x7F then
    if 0x30 ≤ r.toNat ∧ r.toNat ≤ 0x39 then false
    else if 0x61 ≤ r.toNat ∧ r.toNat ≤ 0x7A then false
    else if 0x41 ≤ r.toNat ∧ r.toNat ≤ 0x5A then false
    else if r.toNat = 0x5F then false
    else true
  else if U.isLetter r || U.isDigit r then false
  else unicodeIsSpace r

/-- The mapping closure of `strings.Title`, with `prev` as an argument. -/
def titleFrom (U : CaseTables) : Char → GoString → GoString
  | _, [] => []
  | prev, r :: rest =>
    (if isSeparator U prev then unicodeToTitle U r else r) :: titleFrom U r rest

/-- Go `strings.Title`: `prev` starts as a space. -/
def Title (U : CaseTables) (s : GoString) : GoString :=
  titleFrom U ' ' s

/-! ## Package encoding/csv, as `ReadCSV` configures it -/

/-- The errors of `csv.Reader` that can arise with the default settings. -/
inductive ParseError
  | ErrBareQuote
  | ErrQuote
  | ErrFieldCount
  deriving DecidableEq, Repr

/-- What `readLine` does to every physical line: `\r\n` becomes `\n`, and a
`\r` that ends the input is dropped. -/
def normalizeNL : List Char → List Char
  | [] => []
  | c :: rest =>
    if c = '\r' ∧ (rest = [] ∨ rest.head? = some '\n') then normalizeNL rest
    else c :: normalizeNL rest

/-- Where `readRecord` stands in the text. -/
inductive ReaderState
  | recordStart
  | fieldStart
  | unquoted
  | quoted
  | quoteSeen
  deriving DecidableEq, Repr

/-- The end of `readRecord`: check or update the expected fields per record. -/
def checkFieldCount (FieldsPerRecord : Int) (dst : List GoString) : Except ParseError Int :=
  if FieldsPerRecord > 0 then
    if (dst.length : Int) ≠ FieldsPerRecord then .error .ErrFieldCount else .ok FieldsPerRecord
  else if FieldsPerRecord = 0 then .ok (dst.length : Int)
  else .ok FieldsPerRecord

/-- The end of `readRecord` and the next turn of the loop of `ReadAll`: the
record `dst` is checked against the expected fields per record; an error ends
the reading, otherwise the record is kept and the reading goes on with the
setting as updated. -/
def endRecord (FieldsPerRecord : Int) (dst : List GoString)
    (next : Int → Except ParseError (List (List GoString))) :
    Except ParseError (List (List GoString)) :=
  match checkFieldCount FieldsPerRecord dst with
  | .error e => .error e
  | .ok n =>
    match next n with
    | .error e => .error e
    | .ok records => .ok (dst :: records)

/-- The loop of `ReadAll` over `readRecord`, character by character: `field`
is the field being read, `dst` the fields of the record read so far, and
`FieldsPerRecord` the reader's setting, which the first record updates. -/
def readRecords (st : ReaderState) (field : GoString) (dst : List GoString)
    (FieldsPerRecord : Int) : List Char → Except ParseError (List (List GoString))
  | [] =>
    match st with
    | .recordStart => .ok []
    | .quoted => .error .ErrQuote
    | _ => endRecord FieldsPerRecord (dst ++ [field]) (fun _ => .ok [])
  | c :: rest =>
    match st with
    | .recordStart =>
      if c = '\n' then readRecords .recordStart [] [] FieldsPerRecord rest
      else if c = '"' then readRecords .quoted [] [] FieldsPerRecord rest
      else if c = ',' then readRecords .fieldStart [] [[]] FieldsPerRecord rest
      else readRecords .unquoted [c] [] FieldsPerRecord rest
    | .fieldStart =>
      if c = '\n' then
        endRecord FieldsPerRecord (dst ++ [[]]) (fun n => readRecords .recordStart [] [] n rest)
      else if c = '"' then readRecords .quoted [] dst FieldsPerRecord rest
      else if c = ',' then readRecords .fieldStart [] (dst ++ [[]]) FieldsPerRecord rest
      else readRecords .unquoted [c] dst FieldsPerRecord rest
    | .unquoted =>
      if c = '\n' then
        endRecord FieldsPerRecord (dst ++ [field]) (fun n => readRecords .recordStart [] [] n rest)
      else if c = '"' then .error .ErrBareQuote
      else if c = ',' then readRecords .fieldStart [] (dst ++ [field]) FieldsPerRecord rest
      else readRecords .unquoted (field ++ [c]) dst FieldsPerRecord rest
    | .quoted =>
      if c = '"' then readRecords .quoteSeen field dst FieldsPerRecord rest
      else readRecords .quoted (field ++ [c]) dst FieldsPerRecord rest
    | .quoteSeen =>
      if c = '"' then readRecords .quoted (field ++ ['"']) dst FieldsPerRecord rest
      else if c = ',' then readRecords .fieldStart [] (dst ++ [field]) FieldsPerRecord rest
      else if c = '\n' then
        endRecord FieldsPerRecord (dst ++ [field]) (fun n => readRecords .recordStart [] [] n rest)
      else .error .ErrQuote

/-- Go `csv.NewReader(reader)` with `FieldsPerRecord` set as given, then
`r.ReadAll()`. -/
def ReadAll (FieldsPerRecord : Int) (text : GoString) : Except ParseError (List (List GoString)) :=
  readRecords .recordStart [] [] FieldsPerRecord (normalizeNL text)

/-! ## The program -/

/-- The `options` struct. -/
structure options where
  infile : GoString
  overview : Bool
  debug : Bool
  verbose : Bool

/-- The ways in which `ReadCSV` does not return: `log.Fatal` on a parse
error, and the run-time panics "index out of range" of `keyword[0]` and of
`records[0][i]`. -/
inductive Failure
  | fatal (err : ParseError)
  | keywordIndex
  | headerIndex
  deriving DecidableEq, Repr

/-- Go `map[string][]string`: an association list with distinct keys. -/
abbrev KwMap := List (GoString × List GoString)

/-- Go `kw[k]`: the value, `nil` for a key that is absent. -/
def mapIndex : KwMap → GoString → List GoString
  | [], _ => []
  | (k', v) :: rest, k => if k' = k then v else mapIndex rest k

/-- Go `v, ok := kw[k]`. -/
def mapLookup : KwMap → GoString → Option (List GoString)
  | [], _ => none
  | (k', v) :: rest, k => if k' = k then some v else mapLookup rest k

/-- Go `kw[k] = v`. -/
def mapAssign : KwMap → GoString → List GoString → KwMap
  | [], k, v => [(k, v)]
  | (k', v') :: rest, k, v =>
    if k' = k then (k', v) :: rest else (k', v') :: mapAssign rest k v

/-- The keys of a map. -/
def mapKeys (kw : KwMap) : List GoString :=
  kw.map Prod.fst

/-- Go `records[0][i]`, `none` where it is out of range. -/
def headerAt (records : List (List GoString)) (i : Nat) : Option GoString :=
  match records with
  | [] => none
  | header :: _ => header[i]?

/-- Lines 126-132 of `ReadCSV`, which lines 137-143 repeat: strip the
markers, trim, and title-case the keyword unless its first byte, as a string,
is its own upper case. `none` is the panic of `keyword[0]` on an empty
keyword. -/
def normaliseKeyword (U : CaseTables) (keyword : GoString) : Option GoString :=
  let keyword := Trim keyword '*'
  let keyword := TrimSpace keyword
  match byteAt0 keyword with
  | none => none
  | some b =>
    if stringOfByte b ≠ ToUpper U (stringOfByte b) then some (Title U (ToLower U keyword))
    else some keyword

/-- Lines 126-134 of `ReadCSV`, which lines 137-144 repeat: normalise the
keyword and append the header entry of the column to its value. -/
def recordKeyword (U : CaseTables) (records : List (List GoString)) (kw : KwMap) (i : Nat)
    (keyword : GoString) : Except Failure KwMap :=
  match normaliseKeyword U keyword with
  | none => .error .keywordIndex
  | some keyword =>
    match headerAt records i with
    | none => .error .headerIndex
    | some wg => .ok (mapAssign kw keyword (mapIndex kw keyword ++ [wg]))

/-- The body of the inner loop of `ReadCSV` (lines 121-146). -/
def cellStep (U : CaseTables) (opts : options) (records : List (List GoString)) (kw : KwMap)
    (i : Nat) (keyword : GoString) : Except Failure KwMap :=
  if keyword ≠ [] then
    if opts.overview = true then
      if Contains keyword '*' = true then
        recordKeyword U records kw i keyword
      else .ok kw
    else
      recordKeyword U records kw i keyword
  else .ok kw

/-- The inner loop `for i := range records[row]`, from column `i` on. -/
def rowLoop (U : CaseTables) (opts : options) (records : List (List GoString)) :
    Nat → List GoString → KwMap → Except Failure KwMap
  | _, [], kw => .ok kw
  | i, keyword :: rest, kw =>
    match cellStep U opts records kw i keyword with
    | .error e => .error e
    | .ok kw' => rowLoop U opts records (i + 1) rest kw'

/-- The outer loop over the rows that are still to be visited. -/
def rowsLoop (U : CaseTables) (opts : options) (records : List (List GoString)) :
    List (List GoString) → KwMap → Except Failure KwMap
  | [], kw => .ok kw
  | row :: rest, kw =>
    match rowLoop U opts records 0 row kw with
    | .error e => .error e
    | .ok kw' => rowsLoop U opts records rest kw'

/-- The loops of `ReadCSV` on the records read (lines 119-149):
`for row := 1; row < len(records); row++`. -/
def pivot (U : CaseTables) (opts : options) (records : List (List GoString)) :
    Except Failure KwMap :=
  rowsLoop U opts records (records.drop 1) []

/-- Go `ReadCSV`, reading the global `opts`: `r.FieldsPerRecord = 0`,
`r.ReadAll()`, `log.Fatal` on an error, then the loops. -/
def ReadCSV (U : CaseTables) (opts : options) (text : GoString) : Except Failure KwMap :=
  match ReadAll 0 text with
  | .error err => .error (.fatal err)
  | .ok records => pivot U opts records

/-- The zero value `options{}` of the global `opts`: detail mode. -/
def detailOpts : options :=
  ⟨[], false, false, false⟩

/-- The options with only `overview` set. -/
def overviewOpts : options :=
  ⟨[], true, false, false⟩

/-- The input of `TestReadCSV`. -/
def testInput : GoString :=
  "WG1,WG2,WG3\n\"kw1\",\"kw2\",kw3\nkw4,,\n,kw1,kw2\n,kw5,\n".toList

/-- The mapping that `TestReadCSV` expects. -/
def testExpected : KwMap :=
  [("kw1".toList, ["WG1".toList, "WG2".toList]), ("kw2".toList, ["WG2".toList, "WG3".toList]),
    ("kw3".toList, ["WG3".toList]), ("kw4".toList, ["WG1".toList]),
    ("kw5".toList, ["WG2".toList])]

/-! ## GenerateHTML: the entries handed to the template -/

/-- Go `a <= b` on strings: the lexicographic order of the bytes. -/
def stringLE (a b : GoString) : Prop :=
  bytes a ≤ bytes b

instance : DecidableRel stringLE :=
  fun a b => inferInstanceAs (Decidable (bytes a ≤ bytes b))

/-- Go `a < b` on strings. -/
def stringLT (a b : GoString) : Prop :=
  bytes a < bytes b

instance : DecidableRel stringLT :=
  fun a b => inferInstanceAs (Decidable (bytes a < bytes b))

/-- Go `sort.Strings(keys)`: the keys in ascending order. The library sorts
in place with another algorithm; strings that compare equal are equal, so the
sorted sequence is the same for every sorting algorithm. -/
def sortStrings (keys : List GoString) : List GoString :=
  keys.insertionSort stringLE

/-- The type `kwmap` of `GenerateHTML`. -/
structure kwmap where
  Keyword : GoString
  WGs : List GoString
  deriving DecidableEq, Repr

/-- Lines 227-229 of `GenerateHTML`: `for kw := range keywords` appends the
keys in the order `visited` in which the map is ranged over. -/
def collectKeys (visited : List GoString) : List GoString :=
  visited.foldl (fun keys kw => keys ++ [kw]) []

/-- Lines 233-236: `wglist = nil`, then `for wg := range keywords[kw]` appends
`keywords[kw][wg]` for every index `wg`. -/
def copyWGs (keywords : KwMap) (kw : GoString) : List GoString :=
  (List.range (mapIndex keywords kw).length).foldl
    (fun wglist wg => wglist ++ [(mapIndex keywords kw).getD wg []]) []

/-- Lines 226-240 of `GenerateHTML`: the value of `result` that is handed to
the template, when `range keywords` visits the keys in the order `visited`. -/
def GenerateHTML_result (visited : List GoString) (keywords : KwMap) : List kwmap :=
  (sortStrings (collectKeys visited)).foldl
    (fun result kw => result ++ [⟨kw, copyWGs keywords kw⟩]) []

/-! ## GenerateHTML: the template and its execution -/

/-- The `header` of `GenerateHTML` in overview mode (lines 158-172). -/
def headerOverview : GoString :=
  ("\n"
    ++ "\t\t<!DOCTYPE html>\n"
    ++ "\t<html>\n"
    ++ "\t  <head>\n"
    ++ "\t\t<title>Keywords</title>\n"
    ++ "\t\t<link rel=\"stylesheet\" href=\"wagtail.css\" type=\"text/css\">\n"
    ++ "\t  </head>\n"
    ++ "\t  <body style=\"background-color:#F9FBFC;\">\n"
    ++ "\t  \t<div class=\"body body-panel clearfix\" style=\"margin-left: 150px;\">\n"
    ++ "\t  \t<h1>Overview Keywords</h1>\n"
    ++ "\t\t<p>This page helps you find which working groups are working on specific (high level) technologies.</br>\n"
    ++ "\t\tIt is designed to be a simple way for both newcomers to figure out where work they are interested in may\n"
    ++ "\t\tbe being discussed. This is a very high level overview, more detailed information is at <a href=\"page.html\">over here</a>.<p>\n"
    ++ "\n"
    ++ "\t\t").toList

/-- The `header` of `GenerateHTML` in detail mode (lines 174-189). -/
def headerDetail : GoString :=
  ("\n"
    ++ "\t\t<!DOCTYPE html>\n"
    ++ "\t\t<html>\n"
    ++ "\t\t  <head>\n"
    ++ "\t\t\t<title>Keywords</title>\n"
    ++ "\t\t\t<link rel=\"stylesheet\" href=\"wagtail.css\" type=\"text/css\">\n"
    ++ "\t\t  </head>\n"
    ++ "\t\t  <body style=\"background-color:#F9FBFC;\">\n"
    ++ "\t\t\t  <div class=\"body body-panel clearfix\" style=\"margin-left: 150px;\">\n"
    ++ "\t\t\t  <h1>Detail Keywords</h1>\n"
    ++ "\t\t\t<p>This page has a simple mapping from various keywords and acronyms to IETF WGs that are working on these.</br>\n"
    ++ "\t\t\tIt is designed so established IETF particpants to figure out where\n"
    ++ "\t\t\tnew work should go, where a specific protocol or technology of interest is being discussed, etc.</br>\n"
    ++ "\t\t\tA higher level / introductory page is <a href=\"index.html\">over here</a>.<p>\n"
    ++ "\n"
    ++ "\t\t").toList

/-- The text of `body` before the `with` action. -/
def textBeforeWith : GoString :=
  ("\n"
    ++ "\n"
    ++ "\t<p><b>Note:</b> This is very much still a proof of concept / work in progress, and is *very* far from complete.\n"
    ++ "\t</br></br>\n"
    ++ "\t</p>\n"
    ++ "\t<div class=\"rich-text\">\n"
    ++ "\t\t <ul>\n"
    ++ "\t\t  ").toList

/-- The text between the `with` action and the `range` over the entries. -/
def textBeforeRange : GoString :=
  ("\n"
    ++ "\t\t\t").toList

/-- The text of a list item before the keyword. -/
def textItemOpen : GoString :=
  ("\n"
    ++ "\t\t\t\t  <li>\n"
    ++ "\t\t\t\t\t  <b>").toList

/-- The text between the keyword and the `range` over the working groups. -/
def textAfterKeyword : GoString :=
  ("</b> -\n"
    ++ "\t\t\t\t\t  ").toList

/-- The text inside `if $index`: the comma. -/
def textComma : GoString :=
  ",".toList

/-- The text of an anchor before the group in the link. -/
def textAnchorOpen : GoString :=
  " <a href=\"https://datatracker.ietf.org/wg/".toList

/-- The text of an anchor between the two places of the group. -/
def textAnchorMid : GoString :=
  "/about/\">".toList

/-- The text of an anchor after the group. -/
def textAnchorClose : GoString :=
  "</a>".toList

/-- The text of a list item after the working groups. -/
def textItemClose : GoString :=
  ("\n"
    ++ "\t\t\t\t  </li>\n"
    ++ "\t\t\t").toList

/-- The text between the end of the `range` over the entries and the end of `with`. -/
def textAfterRange : GoString :=
  ("\n"
    ++ "\t\t  ").toList

/-- The text of `body` after the end of `with`. -/
def textAfterWith : GoString :=
  ("\n"
    ++ "\t\t  </ul>\n"
    ++ "\t\t</div>\n"
    ++ "\t</div>\n"
    ++ "\t\t  <hr>\n"
    ++ "\t\t  <small>\n"
    ++ "\t\t  Warren Kumari (warren@kumari.net) is helping to organize these - if you know of a good keyword which maps to a WG, please let him know.</small>\n"
    ++ "  </body>\n"
    ++ "</html>\n"
    ++ "\t").toList

/-- Execution of `range $index, $group := .WGs` from the index `index` on: for
every group, the comma if `$index` is not zero, then the anchor with the group
printed in its two places. The package is `text/template`: a string is printed
as it is. -/
def executeWGs : Nat → List GoString → GoString
  | _, [] => []
  | index, group :: rest =>
    (if index ≠ 0 then textComma else [])
      ++ textAnchorOpen ++ group ++ textAnchorMid ++ group ++ textAnchorClose
      ++ executeWGs (index + 1) rest

/-- Execution of the body of `range .` on one entry: the list item. -/
def executeItem (entry : kwmap) : GoString :=
  textItemOpen ++ entry.Keyword ++ textAfterKeyword ++ executeWGs 0 entry.WGs ++ textItemClose

/-- Execution of `body` on `result`: `with .` runs its body only when the
slice is not empty, `range .` runs the item for every entry in order. -/
def executeBody (result : List kwmap) : GoString :=
  textBeforeWith
    ++ (if result ≠ [] then
          textBeforeRange ++ result.flatMap executeItem ++ textAfterRange
        else [])
    ++ textAfterWith

/-- What `GenerateHTML` writes to standard output: the header chosen by
`opts.overview`, then the body executed on the entries. -/
def GenerateHTML_output (opts : options) (visited : List GoString) (keywords : KwMap) :
    GoString :=
  (if opts.overview = true then headerOverview else headerDetail)
    ++ executeBody (GenerateHTML_result visited keywords)

/-- Lines 258-259 of `main`, on the text of the input file: `ReadCSV`, then
`GenerateHTML` on its mapping; `range` gives the order in which the keys of a
map are visited. The value is what is written to standard output, or the
failure that ends the run before anything is written. -/
def mainOutput (U : CaseTables) (opts : options) (range : KwMap → List GoString)
    (text : GoString) : Except Failure GoString :=
  match ReadCSV U opts text with
  | .error e => .error e
  | .ok keywords => .ok (GenerateHTML_output opts (range keywords) keywords)

/-- A keyword mapping for the examples: a key that is not ASCII, a value that
repeats a working group. -/
def sampleKeywords : KwMap :=
  [("Quic".toList, ["quic".toList]),
    ("TLS".toList, ["uta".toList, "tls".toList, "uta".toList]),
    ("Dns".toList, ["dnsop".toList]), ("école".toList, ["edu".toList])]

/-- An order in which `range` may visit the keys of `sampleKeywords`. -/
def sampleVisited : List GoString :=
  ["école".toList, "Dns".toList, "TLS".toList, "Quic".toList]

/-! ## Predicates used in the statements -/

/-- Every record has `n` fields. -/
def fieldCountIs (n : Int) (records : List (List GoString)) : Prop :=
  ∀ row ∈ records, (row.length : Int) = n

instance (n : Int) (records : List (List GoString)) : Decidable (fieldCountIs n records) := by
  unfold fieldCountIs; infer_instance

/-- Every record has as many fields as the first one. -/
def uniformFieldCount (records : List (List GoString)) : Prop :=
  ∀ row ∈ records, row.length = (records.headD []).length

instance (records : List (List GoString)) : Decidable (uniformFieldCount records) := by
  unfold uniformFieldCount; infer_instance

/-- The outcome of a reading that passes exactly when `p` holds of the records. -/
def countVerdict (p : Prop) [Decidable p] (records : List (List GoString)) :
    Except ParseError (List (List GoString)) :=
  if p then .ok records else .error .ErrFieldCount

/-! ## The pivot in the words of the specification -/

/-- The data cells (the cells of the rows after the first) in the order in
which the loops visit them, row by row and by ascending column, each with its
column. -/
def dataCells (records : List (List GoString)) : List (Nat × GoString) :=
  (records.drop 1).flatMap (fun row => row.enum)

/-- Included cells, in the words of the specification: non-empty in detail
mode, non-empty and containing `*` in overview mode. -/
def specIncluded (opts : options) (cell : GoString) : Bool :=
  decide (cell ≠ []) && (!opts.overview || decide ('*' ∈ cell))

/-- The included cells whose normalised keyword is `k`, in scan order. -/
def cellsOfKey (U : CaseTables) (opts : options) (k : GoString)
    (cells : List (Nat × GoString)) : List (Nat × GoString) :=
  cells.filter (fun p => specIncluded opts p.2 && decide (normaliseKeyword U p.2 = some k))

/-- The loops of `ReadCSV` as one loop over the data cells. -/
def cellsLoop (U : CaseTables) (opts : options) (records : List (List GoString)) :
    List (Nat × GoString) → KwMap → Except Failure KwMap
  | [], kw => .ok kw
  | p :: rest, kw =>
    match cellStep U opts records kw p.1 p.2 with
    | .error e => .error e
    | .ok kw' => cellsLoop U opts records rest kw'

/-- A property of the Unicode tables that the statements on white space need:
lower-casing and title-casing send no character that is not white space to
white space. -/
def CaseTables.keepsNonSpace (U : CaseTables) : Prop :=
  ∀ c, unicodeIsSpace c = false →
    unicodeIsSpace (U.toLower c) = false ∧ unicodeIsSpace (U.toTitle c) = false

/-- The number of working-group entries of a map, over all its keys. -/
def entryCount (kw : KwMap) : Nat :=
  (kw.map (fun p => p.2.length)).sum

/-- The anchor of a working group, in the words of the specification: a link
to the page of the group at the datatracker, with the group as its text. -/
def specAnchor (group : GoString) : GoString :=
  "<a href=\"https://datatracker.ietf.org/wg/".toList ++ group ++ "/about/\">".toList
    ++ group ++ "</a>".toList

/-- The mapping that `ReadCSV` returns on the input of `TestReadCSV`. -/
def testReturned : KwMap :=
  [("Kw1".toList, ["WG1".toList, "WG2".toList]), ("Kw2".toList, ["WG2".toList, "WG3".toList]),
    ("Kw3".toList, ["WG3".toList]), ("Kw4".toList, ["WG1".toList]),
    ("Kw5".toList, ["WG2".toList])]

/-! # Theorems -/

/-! ## The test input -/

/-- C1: on the input of `TestReadCSV`, in detail mode, `ReadCSV` returns a
mapping whose keys are the title-cased `Kw1` to `Kw5`; the keys `kw1` to `kw5`
that the test expects are all absent from it. -/
theorem C1_test_input_keys_title_cased (U : CaseTables) :
    ReadCSV U detailOpts testInput =
      .ok [("Kw1".toList, ["WG1".toList, "WG2".toList]),
        ("Kw2".toList, ["WG2".toList, "WG3".toList]), ("Kw3".toList, ["WG3".toList]),
        ("Kw4".toList, ["WG1".toList]), ("Kw5".toList, ["WG2".toList])]
    ∧ ∀ m, ReadCSV U detailOpts testInput = .ok m →
        ∀ k ∈ mapKeys testExpected, mapLookup m k = none := by
  have h : ReadCSV U detailOpts testInput =
      .ok [("Kw1".toList, ["WG1".toList, "WG2".toList]),
        ("Kw2".toList, ["WG2".toList, "WG3".toList]), ("Kw3".toList, ["WG3".toList]),
        ("Kw4".toList, ["WG1".toList]), ("Kw5".toList, ["WG2".toList])] := by rfl
  refine ⟨h, ?_⟩
  intro m hm
  rw [h] at hm
  cases hm
  decide

/-! ## The field count -/

/-- A record list has field count `n` when its first record and the rest have
it. -/
theorem fieldCountIs_cons (n : Int) (row : List GoString) (records : List (List GoString)) :
    fieldCountIs n (row :: records) ↔ (row.length : Int) = n ∧ fieldCountIs n records := by
  simp [fieldCountIs]

/-- Records have one field count when the later ones have the count of the
first. -/
theorem uniformFieldCount_cons (row : List GoString) (records : List (List GoString)) :
    uniformFieldCount (row :: records) ↔ fieldCountIs row.length records := by
  simp [uniformFieldCount, fieldCountIs]

/-- Without a field count, the end of a record keeps the record and goes on. -/
theorem endRecord_unchecked (dst : List GoString)
    (next : Int → Except ParseError (List (List GoString))) (records : List (List GoString))
    (h : endRecord (-1) dst next = .ok records) :
    ∃ rs, next (-1) = .ok rs ∧ records = dst :: rs := by
  simp only [endRecord, checkFieldCount] at h
  cases hn : next (-1) with
  | error e => simp [hn] at h
  | ok rs =>
    simp [hn] at h
    exact ⟨rs, rfl, h.symm⟩

/-- With a positive field count, the end of a record checks the record against
it. -/
theorem endRecord_pos {n : Int} (hn : 0 < n) (dst : List GoString)
    (next : Int → Except ParseError (List (List GoString))) :
    endRecord n dst next =
      if (dst.length : Int) = n then
        (match next n with
          | .error e => .error e
          | .ok records => .ok (dst :: records))
      else .error .ErrFieldCount := by
  simp only [endRecord, checkFieldCount, gt_iff_lt, hn, if_true]
  by_cases h : (dst.length : Int) = n <;> simp [h]

/-- With `FieldsPerRecord = 0`, the end of the record sets the field count to
its length. -/
theorem endRecord_zero (dst : List GoString)
    (next : Int → Except ParseError (List (List GoString))) :
    endRecord 0 dst next =
      (match next (dst.length : Int) with
        | .error e => .error e
        | .ok records => .ok (dst :: records)) := by
  simp [endRecord, checkFieldCount]

/-- The end of a record under a positive field count, against the reading
without one. -/
theorem endRecord_pos_of_unchecked {n : Int} (hn : 0 < n) (dst : List GoString)
    (next : Int → Except ParseError (List (List GoString))) (records : List (List GoString))
    (ih : ∀ rs, next (-1) = .ok rs →
      next n = countVerdict (fieldCountIs n rs) rs)
    (h : endRecord (-1) dst next = .ok records) :
    endRecord n dst next =
      countVerdict (fieldCountIs n records) records := by
  obtain ⟨rs, hrs, rfl⟩ := endRecord_unchecked dst next records h
  rw [endRecord_pos hn, ih rs hrs]
  by_cases h1 : (dst.length : Int) = n <;> by_cases h2 : fieldCountIs n rs <;>
    simp [h1, h2, fieldCountIs_cons, countVerdict]

/-- Under a positive field count the reader accepts what it reads without one
exactly when every record has that count. -/
theorem readRecords_pos_of_unchecked {n : Int} (hn : 0 < n) (input : List Char) :
    ∀ (st : ReaderState) (field : GoString) (dst : List GoString) (records : List (List GoString)),
      readRecords st field dst (-1) input = .ok records →
      readRecords st field dst n input =
        countVerdict (fieldCountIs n records) records := by
  induction input with
  | nil =>
    intro st field dst records h
    cases st <;> simp only [readRecords] at h ⊢
    · cases h; simp [fieldCountIs, countVerdict]
    · exact endRecord_pos_of_unchecked hn _ _ _ (by intro rs hrs; cases hrs; simp [fieldCountIs, countVerdict]) h
    · exact endRecord_pos_of_unchecked hn _ _ _ (by intro rs hrs; cases hrs; simp [fieldCountIs, countVerdict]) h
    · cases h
    · exact endRecord_pos_of_unchecked hn _ _ _ (by intro rs hrs; cases hrs; simp [fieldCountIs, countVerdict]) h
  | cons c rest ih =>
    intro st field dst records h
    cases st <;> simp only [readRecords] at h ⊢ <;> split_ifs at h ⊢ <;>
      first
        | exact ih _ _ _ _ h
        | exact endRecord_pos_of_unchecked hn _ _ _ (fun rs hrs => ih _ _ _ rs hrs) h

/-- The end of the first record under `FieldsPerRecord = 0`, against the
reading without a field count. -/
theorem endRecord_zero_of_unchecked (dst : List GoString)
    (next : Int → Except ParseError (List (List GoString))) (records : List (List GoString))
    (ih : ∀ rs, next (-1) = .ok rs →
      next (dst.length : Int) =
        countVerdict (fieldCountIs (dst.length : Int) rs) rs)
    (h : endRecord (-1) dst next = .ok records) :
    endRecord 0 dst next =
      countVerdict (uniformFieldCount records) records := by
  obtain ⟨rs, hrs, rfl⟩ := endRecord_unchecked dst next records h
  rw [endRecord_zero, ih rs hrs]
  by_cases h2 : fieldCountIs (dst.length : Int) rs <;>
    simp [h2, uniformFieldCount_cons, countVerdict]

/-- With `FieldsPerRecord = 0` the reader accepts what it reads without a
field count exactly when the records have one field count. -/
theorem readRecords_zero_of_unchecked (input : List Char) :
    ∀ (st : ReaderState) (field : GoString) (dst : List GoString) (records : List (List GoString)),
      readRecords st field dst (-1) input = .ok records →
      readRecords st field dst 0 input =
        countVerdict (uniformFieldCount records) records := by
  induction input with
  | nil =>
    intro st field dst records h
    cases st <;> simp only [readRecords] at h ⊢
    · cases h; simp [uniformFieldCount, countVerdict]
    · exact endRecord_zero_of_unchecked _ _ _ (by intro rs hrs; cases hrs; simp [fieldCountIs, countVerdict]) h
    · exact endRecord_zero_of_unchecked _ _ _ (by intro rs hrs; cases hrs; simp [fieldCountIs, countVerdict]) h
    · cases h
    · exact endRecord_zero_of_unchecked _ _ _ (by intro rs hrs; cases hrs; simp [fieldCountIs, countVerdict]) h
  | cons c rest ih =>
    intro st field dst records h
    cases st <;> simp only [readRecords] at h ⊢ <;> split_ifs at h ⊢ <;>
      first
        | exact ih _ _ _ _ h
        | exact endRecord_zero_of_unchecked _ _ _
            (fun rs hrs => readRecords_pos_of_unchecked (by simp) rest _ _ _ rs hrs) h

/-- A record accepted under a positive field count has that count. -/
theorem endRecord_pos_ok {n : Int} (hn : 0 < n) (dst : List GoString)
    (next : Int → Except ParseError (List (List GoString))) (records : List (List GoString))
    (ih : ∀ rs, next n = .ok rs → fieldCountIs n rs)
    (h : endRecord n dst next = .ok records) : fieldCountIs n records := by
  rw [endRecord_pos hn] at h
  split_ifs at h with h1
  cases hx : next n with
  | error e => simp [hx] at h
  | ok rs =>
    simp [hx] at h
    subst h
    exact (fieldCountIs_cons _ _ _).2 ⟨h1, ih rs hx⟩

/-- Records accepted under a positive field count all have that count. -/
theorem readRecords_pos_ok {n : Int} (hn : 0 < n) (input : List Char) :
    ∀ (st : ReaderState) (field : GoString) (dst : List GoString) (records : List (List GoString)),
      readRecords st field dst n input = .ok records → fieldCountIs n records := by
  induction input with
  | nil =>
    intro st field dst records h
    cases st <;> simp only [readRecords] at h
    · cases h; simp [fieldCountIs, countVerdict]
    · exact endRecord_pos_ok hn _ _ _ (by intro rs hrs; cases hrs; simp [fieldCountIs, countVerdict]) h
    · exact endRecord_pos_ok hn _ _ _ (by intro rs hrs; cases hrs; simp [fieldCountIs, countVerdict]) h
    · cases h
    · exact endRecord_pos_ok hn _ _ _ (by intro rs hrs; cases hrs; simp [fieldCountIs, countVerdict]) h
  | cons c rest ih =>
    intro st field dst records h
    cases st <;> simp only [readRecords] at h <;> split_ifs at h <;>
      first
        | exact ih _ _ _ _ h
        | exact endRecord_pos_ok hn _ _ _ (fun rs hrs => ih _ _ _ rs hrs) h

/-- The records accepted after the first record have its field count. -/
theorem endRecord_zero_ok (dst : List GoString)
    (next : Int → Except ParseError (List (List GoString))) (records : List (List GoString))
    (ih : ∀ rs, next (dst.length : Int) = .ok rs → fieldCountIs (dst.length : Int) rs)
    (h : endRecord 0 dst next = .ok records) : uniformFieldCount records := by
  rw [endRecord_zero] at h
  cases hx : next (dst.length : Int) with
  | error e => simp [hx] at h
  | ok rs =>
    simp [hx] at h
    subst h
    exact (uniformFieldCount_cons _ _).2 (ih rs hx)

/-- Records accepted with `FieldsPerRecord = 0` have one field count. -/
theorem readRecords_zero_ok (input : List Char) :
    ∀ (st : ReaderState) (field : GoString) (dst : List GoString) (records : List (List GoString)),
      readRecords st field dst 0 input = .ok records → uniformFieldCount records := by
  induction input with
  | nil =>
    intro st field dst records h
    cases st <;> simp only [readRecords] at h
    · cases h; simp [uniformFieldCount, countVerdict]
    · exact endRecord_zero_ok _ _ _ (by intro rs hrs; cases hrs; simp [fieldCountIs, countVerdict]) h
    · exact endRecord_zero_ok _ _ _ (by intro rs hrs; cases hrs; simp [fieldCountIs, countVerdict]) h
    · cases h
    · exact endRecord_zero_ok _ _ _ (by intro rs hrs; cases hrs; simp [fieldCountIs, countVerdict]) h
  | cons c rest ih =>
    intro st field dst records h
    cases st <;> simp only [readRecords] at h <;> split_ifs at h <;>
      first
        | exact ih _ _ _ _ h
        | exact endRecord_zero_ok _ _ _
            (fun rs hrs => readRecords_pos_ok (by simp) rest _ _ _ rs hrs) h

/-- What `ReadAll` returns to `ReadCSV` has the field count of the header in
every row. -/
theorem ReadAll_uniform (text : GoString) (records : List (List GoString))
    (h : ReadAll 0 text = .ok records) : uniformFieldCount records :=
  readRecords_zero_ok _ _ _ _ _ h

/-- C2, refuted as stated: a text whose data row has fewer fields than the
header, and one whose data row has more, are both well-formed CSV (the reader
without a field count accepts them), and `ReadCSV` ends in `log.Fatal` on
both. -/
theorem C2_counterexample :
    ReadAll (-1) "WG1,WG2\nkw1\n".toList = .ok [["WG1".toList, "WG2".toList], ["kw1".toList]]
    ∧ ReadCSV latin1Tables detailOpts "WG1,WG2\nkw1\n".toList = .error (.fatal .ErrFieldCount)
    ∧ ReadAll (-1) "WG1\nkw1,kw2\n".toList = .ok [["WG1".toList], ["kw1".toList, "kw2".toList]]
    ∧ ReadCSV latin1Tables detailOpts "WG1\nkw1,kw2\n".toList
        = .error (.fatal .ErrFieldCount) := by
  decide

/-- C2, amended: with `FieldsPerRecord = 0` the reader takes the field count
of the first record as the count every later record must have. For a text
that is well-formed CSV (the reader without a field count reads `records`
from it): if every record has the field count of the first, the configured
reader reads the same records and `ReadCSV` is the result of its loops on
them; otherwise `ReadCSV` ends in `log.Fatal` with `ErrFieldCount` and returns
no mapping. -/
theorem C2_first_record_field_count_enforced (U : CaseTables) (opts : options)
    (text : GoString) (records : List (List GoString))
    (h : ReadAll (-1) text = .ok records) :
    (uniformFieldCount records →
      ReadAll 0 text = .ok records ∧ ReadCSV U opts text = pivot U opts records)
    ∧ (¬ uniformFieldCount records →
      ReadCSV U opts text = .error (.fatal .ErrFieldCount)) := by
  have h0 := readRecords_zero_of_unchecked _ _ _ _ _ h
  have h0' : ReadAll 0 text = countVerdict (uniformFieldCount records) records := h0
  constructor
  · intro hu
    have : ReadAll 0 text = .ok records := by simp [h0', countVerdict, hu]
    exact ⟨this, by simp [ReadCSV, this]⟩
  · intro hu
    have : ReadAll 0 text = .error .ErrFieldCount := by simp [h0', countVerdict, hu]
    simp [ReadCSV, this]

/-- C2, witness: the amended statement at a text with a short data row and at
the input of the test. -/
theorem C2_first_record_field_count_enforced_witness :
    ReadCSV latin1Tables overviewOpts "A,B,C\n*x*,y\n".toList = .error (.fatal .ErrFieldCount)
    ∧ ReadAll 0 testInput = ReadAll (-1) testInput :=
  ⟨(C2_first_record_field_count_enforced latin1Tables overviewOpts "A,B,C\n*x*,y\n".toList
      [["A".toList, "B".toList, "C".toList], ["*x*".toList, "y".toList]] (by decide)).2
      (by decide),
   ((C2_first_record_field_count_enforced latin1Tables detailOpts testInput
      [["WG1".toList, "WG2".toList, "WG3".toList], ["kw1".toList, "kw2".toList, "kw3".toList],
        ["kw4".toList, [], []], [[], "kw1".toList, "kw2".toList], [[], "kw5".toList, []]]
      (by decide)).1 (by decide)).1.trans (by decide)⟩

/-! ## The mapping returned -/

/-- Reading a map after an assignment. -/
theorem mapIndex_mapAssign (kw : KwMap) (k k' : GoString) (v : List GoString) :
    mapIndex (mapAssign kw k v) k' = if k = k' then v else mapIndex kw k' := by
  induction kw with
  | nil => simp [mapAssign, mapIndex]
  | cons p rest ih =>
    obtain ⟨k0, v0⟩ := p
    by_cases h0 : k0 = k
    · subst h0
      by_cases h1 : k0 = k' <;> simp [mapAssign, mapIndex, h1]
    · by_cases h1 : k0 = k'
      · subst h1
        have : ¬ k = k0 := fun h => h0 h.symm
        simp [mapAssign, mapIndex, h0, this]
      · simp [mapAssign, mapIndex, h0, h1, ih]

/-- The keys after an assignment: a new key is added at the end. -/
theorem mapKeys_mapAssign (kw : KwMap) (k : GoString) (v : List GoString) :
    mapKeys (mapAssign kw k v) = if k ∈ mapKeys kw then mapKeys kw else mapKeys kw ++ [k] := by
  induction kw with
  | nil => simp [mapAssign, mapKeys]
  | cons p rest ih =>
    obtain ⟨k0, v0⟩ := p
    simp only [mapKeys] at ih
    by_cases h0 : k0 = k
    · subst h0
      simp [mapAssign, mapKeys]
    · have h0' : ¬ k = k0 := fun h => h0 h.symm
      by_cases h1 : k ∈ List.map Prod.fst rest
      · simp only [h1, if_true] at ih
        simp [mapAssign, mapKeys, h0, h0', h1, ih]
      · simp only [h1, if_false] at ih
        simp [mapAssign, mapKeys, h0, h0', h1, ih]


/-- The keys after an assignment are the key assigned and the keys before. -/
theorem mem_mapKeys_mapAssign (kw : KwMap) (k k' : GoString) (v : List GoString) :
    k' ∈ mapKeys (mapAssign kw k v) ↔ k' = k ∨ k' ∈ mapKeys kw := by
  rw [mapKeys_mapAssign]
  by_cases h : k ∈ mapKeys kw
  · simp only [h, if_true]
    constructor
    · exact Or.inr
    · rintro (rfl | h') <;> assumption
  · simp only [h, if_false, List.mem_append, List.mem_singleton]
    tauto

/-- An assignment keeps the keys distinct. -/
theorem nodup_mapKeys_mapAssign (kw : KwMap) (k : GoString) (v : List GoString)
    (h : (mapKeys kw).Nodup) : (mapKeys (mapAssign kw k v)).Nodup := by
  rw [mapKeys_mapAssign]
  by_cases hk : k ∈ mapKeys kw
  · simpa [hk] using h
  · simp only [hk, if_false]
    exact List.Nodup.append h (List.nodup_singleton k) (by simpa using hk)

/-- The comma-ok form finds exactly the keys of the map. -/
theorem mapLookup_eq_some_iff (kw : KwMap) (k : GoString) :
    (mapLookup kw k).isSome ↔ k ∈ mapKeys kw := by
  induction kw with
  | nil => simp [mapLookup, mapKeys]
  | cons p rest ih =>
    obtain ⟨k0, v0⟩ := p
    simp only [mapKeys] at ih
    by_cases h0 : k0 = k
    · simp [mapLookup, mapKeys, h0]
    · have h0' : ¬ k = k0 := fun h => h0 h.symm
      simp [mapLookup, mapKeys, h0, h0', ih]

/-- Indexing is the comma-ok form with `nil` for an absent key. -/
theorem mapIndex_eq_of_mapLookup (kw : KwMap) (k : GoString) :
    mapIndex kw k = (mapLookup kw k).getD [] := by
  induction kw with
  | nil => simp [mapLookup, mapIndex]
  | cons p rest ih =>
    obtain ⟨k0, v0⟩ := p
    by_cases h0 : k0 = k <;> simp [mapLookup, mapIndex, h0, ih]

/-- The loops over two lists of cells in a row. -/
theorem cellsLoop_append (U : CaseTables) (opts : options) (records : List (List GoString))
    (a b : List (Nat × GoString)) (kw : KwMap) :
    cellsLoop U opts records (a ++ b) kw =
      match cellsLoop U opts records a kw with
      | .error e => .error e
      | .ok kw' => cellsLoop U opts records b kw' := by
  induction a generalizing kw with
  | nil => simp [cellsLoop]
  | cons p rest ih =>
    simp only [List.cons_append, cellsLoop]
    cases cellStep U opts records kw p.1 p.2 with
    | error e => simp
    | ok kw' => simp [ih]

/-- The inner loop is the loop over the cells of the row with their columns. -/
theorem rowLoop_eq_cellsLoop (U : CaseTables) (opts : options) (records : List (List GoString))
    (row : List GoString) (i : Nat) (kw : KwMap) :
    rowLoop U opts records i row kw = cellsLoop U opts records (row.enumFrom i) kw := by
  induction row generalizing i kw with
  | nil => simp [rowLoop, cellsLoop]
  | cons c rest ih =>
    simp only [rowLoop, List.enumFrom_cons, cellsLoop]
    cases cellStep U opts records kw i c with
    | error e => simp
    | ok kw' => simp [ih]

/-- The outer loop is the loop over the cells of its rows, row by row. -/
theorem rowsLoop_eq_cellsLoop (U : CaseTables) (opts : options) (records : List (List GoString))
    (rows : List (List GoString)) (kw : KwMap) :
    rowsLoop U opts records rows kw =
      cellsLoop U opts records (rows.flatMap (fun row => row.enum)) kw := by
  induction rows generalizing kw with
  | nil => simp [rowsLoop, cellsLoop]
  | cons row rest ih =>
    simp only [rowsLoop, List.flatMap_cons, cellsLoop_append, rowLoop_eq_cellsLoop, List.enum]
    cases cellsLoop U opts records (List.enumFrom 0 row) kw with
    | error e => simp
    | ok kw' => simp [ih, List.enum]

/-- The loops of `ReadCSV` are the loop over the data cells in scan order. -/
theorem pivot_eq_cellsLoop (U : CaseTables) (opts : options) (records : List (List GoString)) :
    pivot U opts records = cellsLoop U opts records (dataCells records) [] := by
  simp [pivot, dataCells, rowsLoop_eq_cellsLoop]

/-- What one turn of the inner loop does. -/
theorem cellStep_ok (U : CaseTables) (opts : options) (records : List (List GoString))
    (kw kw' : KwMap) (i : Nat) (cell : GoString)
    (h : cellStep U opts records kw i cell = .ok kw') :
    (specIncluded opts cell = false ∧ kw' = kw) ∨
    (specIncluded opts cell = true ∧ ∃ k wg, normaliseKeyword U cell = some k ∧
      headerAt records i = some wg ∧ kw' = mapAssign kw k (mapIndex kw k ++ [wg])) := by
  have hrec : recordKeyword U records kw i cell = .ok kw' →
      ∃ k wg, normaliseKeyword U cell = some k ∧
        headerAt records i = some wg ∧ kw' = mapAssign kw k (mapIndex kw k ++ [wg]) := by
    intro hr
    simp only [recordKeyword] at hr
    cases hk : normaliseKeyword U cell with
    | none => simp [hk] at hr
    | some k =>
      cases hw : headerAt records i with
      | none => simp [hk, hw] at hr
      | some wg =>
        simp [hk, hw] at hr
        exact ⟨k, wg, rfl, rfl, hr.symm⟩
  simp only [cellStep, Contains] at h
  by_cases hc : cell = []
  · left
    simp [hc] at h
    simp [specIncluded, hc, h]
  · by_cases ho : opts.overview = true
    · by_cases hs : '*' ∈ cell
      · right
        simp [hc, ho, hs] at h
        exact ⟨by simp [specIncluded, hc, ho, hs], hrec h⟩
      · left
        simp [hc, ho, hs] at h
        simp [specIncluded, hc, ho, hs, h]
    · right
      simp [hc, ho] at h
      exact ⟨by simp [specIncluded, hc, ho], hrec h⟩


/-- The invariant of the loops: values grow by the header entries of the
included cells of their key, keys by the normalised keywords of the included
cells, and the keys stay distinct. -/
theorem cellsLoop_spec (U : CaseTables) (opts : options) (records : List (List GoString))
    (cells : List (Nat × GoString)) :
    ∀ (kw m : KwMap), cellsLoop U opts records cells kw = .ok m →
      (∀ k, (mapIndex m k).map some =
        (mapIndex kw k).map some
          ++ (cellsOfKey U opts k cells).map (fun p => headerAt records p.1))
      ∧ (∀ k, k ∈ mapKeys m ↔ k ∈ mapKeys kw ∨
          ∃ p ∈ cells, specIncluded opts p.2 = true ∧ normaliseKeyword U p.2 = some k)
      ∧ ((mapKeys kw).Nodup → (mapKeys m).Nodup) := by
  induction cells with
  | nil =>
    intro kw m h
    simp only [cellsLoop] at h
    cases h
    simp [cellsOfKey]
  | cons p rest ih =>
    intro kw m h
    simp only [cellsLoop] at h
    cases hs : cellStep U opts records kw p.1 p.2 with
    | error e => simp [hs] at h
    | ok kw' =>
      simp only [hs] at h
      obtain ⟨ihv, ihk, ihn⟩ := ih kw' m h
      rcases cellStep_ok U opts records kw kw' p.1 p.2 hs with ⟨hinc, rfl⟩ | ⟨hinc, k0, wg, hk0, hwg, rfl⟩
      · refine ⟨?_, ?_, ihn⟩
        · intro k
          rw [ihv k]
          simp [cellsOfKey, List.filter_cons, hinc]
        · intro k
          rw [ihk k]
          simp [hinc]
      · refine ⟨?_, ?_, fun hn => ihn (nodup_mapKeys_mapAssign _ _ _ hn)⟩
        · intro k
          rw [ihv k, mapIndex_mapAssign]
          by_cases hkk : k0 = k
          · subst hkk
            simp [cellsOfKey, List.filter_cons, hinc, hk0, hwg]
          · have : ¬ (some k0 = some k) := by simpa using hkk
            simp [cellsOfKey, List.filter_cons, hinc, hk0, hkk]
        · intro k
          rw [ihk k, mem_mapKeys_mapAssign]
          constructor
          · rintro ((rfl | h1) | ⟨q, hq, h2⟩)
            · exact Or.inr ⟨p, List.mem_cons_self _ _, hinc, hk0⟩
            · exact Or.inl h1
            · exact Or.inr ⟨q, List.mem_cons_of_mem _ hq, h2⟩
          · rintro (h1 | ⟨q, hq, h2, h3⟩)
            · exact Or.inl (Or.inr h1)
            · rcases List.mem_cons.1 hq with rfl | hq'
              · left; left
                rw [hk0] at h3
                exact (Option.some.inj h3).symm
              · exact Or.inr ⟨q, hq', h2, h3⟩

/-- C3: when `ReadCSV` returns a mapping, in either mode, its keys are
distinct and are exactly the normalised keywords of the included data cells,
and the value of a key is the list of the header entries `records[0][i]` of the
included cells with that normalised keyword, one per cell, in scan order, with
repetitions kept. -/
theorem C3_mapping_is_pivot_of_included_cells (U : CaseTables) (opts : options)
    (text : GoString) (m : KwMap) (h : ReadCSV U opts text = .ok m) :
    ∃ records, ReadAll 0 text = .ok records ∧ (mapKeys m).Nodup ∧
      ∀ k,
        (k ∈ mapKeys m ↔
          ∃ p ∈ dataCells records, specIncluded opts p.2 = true ∧ normaliseKeyword U p.2 = some k)
        ∧ (mapIndex m k).map some =
            (cellsOfKey U opts k (dataCells records)).map (fun p => headerAt records p.1) := by
  simp only [ReadCSV] at h
  cases hr : ReadAll 0 text with
  | error e => simp [hr] at h
  | ok records =>
    simp only [hr, pivot_eq_cellsLoop] at h
    obtain ⟨hv, hk, hn⟩ := cellsLoop_spec U opts records (dataCells records) [] m h
    refine ⟨records, rfl, hn (by simp [mapKeys]), fun k => ⟨?_, ?_⟩⟩
    · simpa [mapKeys] using hk k
    · simpa [mapIndex] using hv k

/-- C3, witness: the statement at the input of the test, in detail mode. -/
theorem C3_mapping_is_pivot_of_included_cells_witness :
    ∃ records, ReadAll 0 testInput = .ok records ∧
      (mapKeys [("Kw1".toList, ["WG1".toList, "WG2".toList]),
        ("Kw2".toList, ["WG2".toList, "WG3".toList]), ("Kw3".toList, ["WG3".toList]),
        ("Kw4".toList, ["WG1".toList]), ("Kw5".toList, ["WG2".toList])]).Nodup ∧
      ∀ k,
        (k ∈ mapKeys [("Kw1".toList, ["WG1".toList, "WG2".toList]),
            ("Kw2".toList, ["WG2".toList, "WG3".toList]), ("Kw3".toList, ["WG3".toList]),
            ("Kw4".toList, ["WG1".toList]), ("Kw5".toList, ["WG2".toList])] ↔
          ∃ p ∈ dataCells records,
            specIncluded detailOpts p.2 = true ∧ normaliseKeyword latin1Tables p.2 = some k)
        ∧ (mapIndex [("Kw1".toList, ["WG1".toList, "WG2".toList]),
            ("Kw2".toList, ["WG2".toList, "WG3".toList]), ("Kw3".toList, ["WG3".toList]),
            ("Kw4".toList, ["WG1".toList]), ("Kw5".toList, ["WG2".toList])] k).map some =
            (cellsOfKey latin1Tables detailOpts k (dataCells records)).map
              (fun p => headerAt records p.1) :=
  C3_mapping_is_pivot_of_included_cells latin1Tables detailOpts testInput _ (by decide)

/-! ## Keyword normalisation -/

/-- The code point with a number below the surrogates has that number. -/
theorem toNat_ofNat_small (n : Nat) (h : n < 0xD800) : (Char.ofNat n).toNat = n := by
  have hv : n.isValidChar := Or.inl h
  simp only [Char.ofNat, hv, dite_true, Char.ofNatAux, Char.toNat]
  rfl

/-- A text is the run trimmed on the left, what is left, and the run trimmed
on the right. -/
theorem trim_ends (p : Char → Bool) (s : GoString) :
    s = ((s.rdropWhile p).takeWhile p ++ (s.rdropWhile p).dropWhile p) ++ s.rtakeWhile p := by
  rw [List.takeWhile_append_dropWhile, List.rdropWhile, List.rtakeWhile, ← List.reverse_append,
    List.takeWhile_append_dropWhile, List.reverse_reverse]

/-- A text of one character only is a run of it. -/
theorem eq_replicate_of_all (c : Char) (l : List Char) (h : ∀ x ∈ l, x = c) :
    l = List.replicate l.length c :=
  List.eq_replicate_of_mem h

/-- `strings.Trim(s, "*")` removes a run of the character at each end, and
what is left neither starts nor ends with it. -/
theorem Trim_spec (s : GoString) (c : Char) :
    ∃ a b, s = List.replicate a c ++ Trim s c ++ List.replicate b c
      ∧ (Trim s c).head? ≠ some c ∧ (Trim s c).getLast? ≠ some c := by
  let p : Char → Bool := fun x => decide (x = c)
  have h1 : ∀ x ∈ (s.rdropWhile p).takeWhile p, x = c := by
    intro x hx
    simpa [p] using List.mem_takeWhile_imp hx
  have h2 : ∀ x ∈ s.rtakeWhile p, x = c := by
    intro x hx
    simpa [p] using List.mem_rtakeWhile_imp hx
  refine ⟨((s.rdropWhile p).takeWhile p).length, (s.rtakeWhile p).length, ?_, ?_, ?_⟩
  · rw [← eq_replicate_of_all c _ h1, ← eq_replicate_of_all c _ h2]
    exact trim_ends p s
  · intro h
    have := List.head?_dropWhile_not p (s.rdropWhile p)
    simp only [Trim] at h
    rw [h] at this
    simp [p] at this
  · intro h
    simp only [Trim] at h
    obtain ⟨ys, hys⟩ := List.getLast?_eq_some_iff.1 h
    have hsuf : (s.rdropWhile p).dropWhile p <:+ s.rdropWhile p := List.dropWhile_suffix _
    obtain ⟨zs, hzs⟩ := hsuf
    have hne : s.rdropWhile p ≠ [] := by
      intro h0
      rw [h0] at hys
      simp at hys
    have hl := List.rdropWhile_last_not p s hne
    have : (s.rdropWhile p).getLast hne = c := by
      have e : s.rdropWhile p = (zs ++ ys) ++ [c] := by
        rw [← hzs]
        show zs ++ List.dropWhile p (List.rdropWhile p s) = _
        rw [hys, List.append_assoc]
      simp [e]
    rw [this] at hl
    simp [p] at hl

/-- `strings.TrimSpace` leaves no white space at either end. -/
theorem TrimSpace_spec (s : GoString) :
    (∀ c, (TrimSpace s).head? = some c → unicodeIsSpace c = false)
    ∧ (∀ c, (TrimSpace s).getLast? = some c → unicodeIsSpace c = false) := by
  constructor
  · intro c h
    simp only [TrimSpace] at h
    obtain ⟨zs, hzs⟩ := List.rdropWhile_prefix unicodeIsSpace (s.dropWhile unicodeIsSpace)
    obtain ⟨ys, hys⟩ := List.head?_eq_some_iff.1 h
    have := List.head?_dropWhile_not unicodeIsSpace s
    rw [← hzs, hys] at this
    simpa using this
  · intro c h
    simp only [TrimSpace] at h
    have hne : (s.dropWhile unicodeIsSpace).rdropWhile unicodeIsSpace ≠ [] := by
      intro h0
      rw [h0] at h
      simp at h
    have hl := List.rdropWhile_last_not unicodeIsSpace (s.dropWhile unicodeIsSpace) hne
    rw [List.getLast?_eq_getLast _ hne] at h
    cases h
    simpa using hl


/-- Visible ASCII is not white space. -/
theorem unicodeIsSpace_of_toNat (c : Char) (n : Nat) (h : c.toNat = n)
    (hn : (0x21 ≤ n ∧ n ≤ 0x7F)) : unicodeIsSpace c = false := by
  simp only [unicodeIsSpace, h]
  have : n ≤ 0xFF := by omega
  simp only [this, if_true, decide_eq_false_iff_not]
  omega

/-- Lower-casing yields no white space from what is not white space. -/
theorem unicodeToLower_nonSpace (U : CaseTables) (hU : U.keepsNonSpace) (c : Char)
    (h : unicodeIsSpace c = false) : unicodeIsSpace (unicodeToLower U c) = false := by
  simp only [unicodeToLower]
  split_ifs with h1 h2
  · exact unicodeIsSpace_of_toNat _ _ (toNat_ofNat_small _ (by omega)) (by omega)
  · exact h
  · exact (hU c h).1

/-- Title-casing a character yields no white space from what is not white
space. -/
theorem unicodeToTitle_nonSpace (U : CaseTables) (hU : U.keepsNonSpace) (c : Char)
    (h : unicodeIsSpace c = false) : unicodeIsSpace (unicodeToTitle U c) = false := by
  simp only [unicodeToTitle]
  split_ifs with h1 h2
  · exact unicodeIsSpace_of_toNat _ _ (toNat_ofNat_small _ (by omega)) (by omega)
  · exact h
  · exact (hU c h).2

/-- `strings.Title` keeps the number of characters. -/
theorem titleFrom_length (U : CaseTables) (s : GoString) :
    ∀ prev, (titleFrom U prev s).length = s.length := by
  induction s with
  | nil => intro prev; simp [titleFrom]
  | cons c rest ih => intro prev; simp [titleFrom, ih]

/-- Every character of the title is a character of the text, as it is or
title-cased. -/
theorem titleFrom_mem (U : CaseTables) (s : GoString) :
    ∀ prev x, x ∈ titleFrom U prev s → ∃ y ∈ s, x = y ∨ x = unicodeToTitle U y := by
  induction s with
  | nil => intro prev x h; simp [titleFrom] at h
  | cons c rest ih =>
    intro prev x h
    simp only [titleFrom, List.mem_cons] at h
    rcases h with h | h
    · refine ⟨c, List.mem_cons_self _ _, ?_⟩
      split_ifs at h
      · exact Or.inr h
      · exact Or.inl h
    · obtain ⟨y, hy, hxy⟩ := ih c x h
      exact ⟨y, List.mem_cons_of_mem _ hy, hxy⟩

/-- The first character of the title is the first of the text, as it is or
title-cased. -/
theorem titleFrom_head? (U : CaseTables) (s : GoString) (prev x : Char)
    (h : (titleFrom U prev s).head? = some x) :
    ∃ y, s.head? = some y ∧ (x = y ∨ x = unicodeToTitle U y) := by
  cases s with
  | nil => simp [titleFrom] at h
  | cons c rest =>
    simp only [titleFrom, List.head?_cons, Option.some.injEq] at h
    refine ⟨c, rfl, ?_⟩
    split_ifs at h
    · exact Or.inr h.symm
    · exact Or.inl h.symm

/-- The last character of the title is the last of the text, as it is or
title-cased. -/
theorem titleFrom_getLast? (U : CaseTables) (s : GoString) :
    ∀ prev x, (titleFrom U prev s).getLast? = some x →
      ∃ y, s.getLast? = some y ∧ (x = y ∨ x = unicodeToTitle U y) := by
  induction s with
  | nil => intro prev x h; simp [titleFrom] at h
  | cons c rest ih =>
    intro prev x h
    cases rest with
    | nil =>
      simp only [titleFrom, List.getLast?_singleton, Option.some.injEq] at h
      refine ⟨c, rfl, ?_⟩
      split_ifs at h
      · exact Or.inr h.symm
      · exact Or.inl h.symm
    | cons d rest' =>
      have : (titleFrom U prev (c :: d :: rest')).getLast? = (titleFrom U c (d :: rest')).getLast? := by
        simp [titleFrom]
      rw [this] at h
      obtain ⟨y, hy, hxy⟩ := ih c x h
      exact ⟨y, by simpa using hy, hxy⟩

/-- Title-casing the lower-cased text keeps both ends free of white space. -/
theorem Title_ToLower_ends (U : CaseTables) (hU : U.keepsNonSpace) (t : GoString)
    (hh : ∀ c, t.head? = some c → unicodeIsSpace c = false)
    (hl : ∀ c, t.getLast? = some c → unicodeIsSpace c = false) :
    (∀ c, (Title U (ToLower U t)).head? = some c → unicodeIsSpace c = false)
    ∧ (∀ c, (Title U (ToLower U t)).getLast? = some c → unicodeIsSpace c = false) := by
  constructor
  · intro c h
    obtain ⟨y, hy, hxy⟩ := titleFrom_head? U _ _ _ h
    simp only [ToLower, List.head?_map, Option.map_eq_some'] at hy
    obtain ⟨z, hz, rfl⟩ := hy
    have hz' := unicodeToLower_nonSpace U hU z (hh z hz)
    rcases hxy with rfl | rfl
    · exact hz'
    · exact unicodeToTitle_nonSpace U hU _ hz'
  · intro c h
    obtain ⟨y, hy, hxy⟩ := titleFrom_getLast? U _ _ _ h
    simp only [ToLower, List.getLast?_map, Option.map_eq_some'] at hy
    obtain ⟨z, hz, rfl⟩ := hy
    have hz' := unicodeToLower_nonSpace U hU z (hl z hz)
    rcases hxy with rfl | rfl
    · exact hz'
    · exact unicodeToTitle_nonSpace U hU _ hz'

/-- Every code point has at least one byte. -/
theorem utf8EncodeRune_ne_nil (c : Char) : utf8EncodeRune c ≠ [] := by
  simp only [utf8EncodeRune]
  split_ifs <;> simp

/-- `s[0]` is out of range on the empty string only. -/
theorem byteAt0_eq_none_iff (s : GoString) : byteAt0 s = none ↔ s = [] := by
  cases s with
  | nil => simp [byteAt0, bytes]
  | cons c rest =>
    simp [byteAt0, bytes, utf8EncodeRune_ne_nil]

/-- The key is the stripped and trimmed text, or its title-cased lower case. -/
theorem normaliseKeyword_some (U : CaseTables) (cell k : GoString)
    (h : normaliseKeyword U cell = some k) :
    TrimSpace (Trim cell '*') ≠ [] ∧
      (k = TrimSpace (Trim cell '*') ∨ k = Title U (ToLower U (TrimSpace (Trim cell '*')))) := by
  simp only [normaliseKeyword] at h
  cases hb : byteAt0 (TrimSpace (Trim cell '*')) with
  | none => simp [hb] at h
  | some b =>
    simp only [hb] at h
    refine ⟨fun h0 => ?_, ?_⟩
    · rw [(byteAt0_eq_none_iff _).2 h0] at hb
      cases hb
    · split_ifs at h
      · exact Or.inr (Option.some.inj h).symm
      · exact Or.inl (Option.some.inj h).symm

/-- The panic of `keyword[0]` arises exactly when the stripped and trimmed
text is empty. -/
theorem normaliseKeyword_none (U : CaseTables) (cell : GoString) :
    normaliseKeyword U cell = none ↔ TrimSpace (Trim cell '*') = [] := by
  constructor
  · intro h
    simp only [normaliseKeyword] at h
    cases hb : byteAt0 (TrimSpace (Trim cell '*')) with
    | none => exact (byteAt0_eq_none_iff _).1 hb
    | some b =>
      simp only [hb] at h
      split_ifs at h
  · intro h
    simp [normaliseKeyword, h, byteAt0, bytes]

/-- The Latin-1 tables send no character that is not white space to white space. -/
theorem latin1Tables_keepsNonSpace : latin1Tables.keepsNonSpace := by
  intro c hc
  have key : ∀ n, n < 0xD800 → ((0x21 ≤ n ∧ n ≤ 0x7F) ∨ (0xA1 ≤ n ∧ n ≤ 0x167F)) →
      unicodeIsSpace (Char.ofNat n) = false := by
    intro n h1 h2
    simp only [unicodeIsSpace, toNat_ofNat_small n h1]
    split_ifs <;> simp only [decide_eq_false_iff_not] <;> omega
  constructor
  · simp only [latin1Tables]
    split_ifs with h1
    · exact key _ (by omega) (by omega)
    · exact hc
  · simp only [latin1Tables]
    split_ifs with h1 h2 h3
    · exact key _ (by omega) (by omega)
    · exact key _ (by omega) (by omega)
    · exact key _ (by omega) (by omega)
    · exact hc

/-- When the loops return, every included cell had a keyword and a header entry. -/
theorem cellsLoop_included (U : CaseTables) (opts : options) (records : List (List GoString))
    (cells : List (Nat × GoString)) :
    ∀ (kw m : KwMap), cellsLoop U opts records cells kw = .ok m →
      ∀ p ∈ cells, specIncluded opts p.2 = true →
        ∃ k wg, normaliseKeyword U p.2 = some k ∧ headerAt records p.1 = some wg := by
  induction cells with
  | nil => intro kw m _ p hp; simp at hp
  | cons q rest ih =>
    intro kw m h p hp hinc
    simp only [cellsLoop] at h
    cases hs : cellStep U opts records kw q.1 q.2 with
    | error e => simp [hs] at h
    | ok kw' =>
      simp only [hs] at h
      rcases List.mem_cons.1 hp with rfl | hp'
      · rcases cellStep_ok U opts records kw kw' p.1 p.2 hs with ⟨hx, _⟩ | ⟨_, k, wg, hk, hw, _⟩
        · rw [hx] at hinc; cases hinc
        · exact ⟨k, wg, hk, hw⟩
      · exact ih kw' m h p hp' hinc

/-- C4, refuted as stated: a `*` inside the cell text, and a `*` that white
space separates from the start of the cell, both stay in the key. -/
theorem C4_counterexample :
    ReadCSV latin1Tables detailOpts "WG1\nTLS*1.3\n *tcp\n".toList
      = .ok [("TLS*1.3".toList, ["WG1".toList]), ("*tcp".toList, ["WG1".toList])]
    ∧ '*' ∈ "TLS*1.3".toList ∧ '*' ∈ "*tcp".toList := by
  decide

/-- C4, amended: normalisation removes the leading and the trailing run of `*`
of the cell text (`strings.Trim`), not every `*`, and then trims the white
space around what is left. For every included data cell of an input on which
`ReadCSV` returns a mapping: the cell text is a run of `*`, a text `t` that
neither starts nor ends with `*`, and a run of `*`; the key under which the
cell is recorded is `t` with its surrounding white space trimmed, or the
title-cased lower case of that; the key is not empty and neither starts nor
ends with white space. -/
theorem C4_markers_trimmed_at_the_ends (U : CaseTables) (hU : U.keepsNonSpace) (opts : options)
    (text : GoString) (m : KwMap) (records : List (List GoString)) (p : Nat × GoString)
    (h : ReadCSV U opts text = .ok m) (hr : ReadAll 0 text = .ok records)
    (hp : p ∈ dataCells records) (hinc : specIncluded opts p.2 = true) :
    ∃ k a b, normaliseKeyword U p.2 = some k ∧ k ∈ mapKeys m
      ∧ p.2 = List.replicate a '*' ++ Trim p.2 '*' ++ List.replicate b '*'
      ∧ (Trim p.2 '*').head? ≠ some '*' ∧ (Trim p.2 '*').getLast? ≠ some '*'
      ∧ (k = TrimSpace (Trim p.2 '*') ∨ k = Title U (ToLower U (TrimSpace (Trim p.2 '*'))))
      ∧ k ≠ []
      ∧ (∀ c, k.head? = some c → unicodeIsSpace c = false)
      ∧ (∀ c, k.getLast? = some c → unicodeIsSpace c = false) := by
  simp only [ReadCSV, hr, pivot_eq_cellsLoop] at h
  obtain ⟨k, wg, hk, _⟩ := cellsLoop_included U opts records _ [] m h p hp hinc
  obtain ⟨_, hkeys, _⟩ := cellsLoop_spec U opts records _ [] m h
  obtain ⟨a, b, hab, hh, hl⟩ := Trim_spec p.2 '*'
  obtain ⟨hne, hcase⟩ := normaliseKeyword_some U p.2 k hk
  obtain ⟨th, tl⟩ := TrimSpace_spec (Trim p.2 '*')
  refine ⟨k, a, b, hk, (hkeys k).2 (Or.inr ⟨p, hp, hinc, hk⟩), hab, hh, hl, hcase, ?_, ?_⟩
  · rcases hcase with rfl | rfl
    · exact hne
    · intro h0
      have := congrArg List.length h0
      simp [Title, titleFrom_length, ToLower] at this
      exact hne this
  · rcases hcase with rfl | rfl
    · exact ⟨th, tl⟩
    · exact Title_ToLower_ends U hU _ th tl

/-- C4, witness: the amended statement at an overview cell with markers inside. -/
theorem C4_markers_trimmed_at_the_ends_witness :
    ∃ k a b, normaliseKeyword latin1Tables "** network *coding *".toList = some k
      ∧ k ∈ mapKeys [("Network *Coding".toList, ["WG2".toList])]
      ∧ "** network *coding *".toList
          = List.replicate a '*' ++ Trim "** network *coding *".toList '*' ++ List.replicate b '*'
      ∧ (Trim "** network *coding *".toList '*').head? ≠ some '*'
      ∧ (Trim "** network *coding *".toList '*').getLast? ≠ some '*'
      ∧ (k = TrimSpace (Trim "** network *coding *".toList '*')
          ∨ k = Title latin1Tables
                (ToLower latin1Tables (TrimSpace (Trim "** network *coding *".toList '*'))))
      ∧ k ≠ []
      ∧ (∀ c, k.head? = some c → unicodeIsSpace c = false)
      ∧ (∀ c, k.getLast? = some c → unicodeIsSpace c = false) :=
  C4_markers_trimmed_at_the_ends latin1Tables latin1Tables_keepsNonSpace overviewOpts
    "WG1,WG2\nTLS,** network *coding *\n".toList [("Network *Coding".toList, ["WG2".toList])]
    [["WG1".toList, "WG2".toList], ["TLS".toList, "** network *coding *".toList]]
    (1, "** network *coding *".toList) (by decide) (by decide) (by decide) (by decide)

/-! ## The first-character test, and the values of the mapping -/

/-- C5: the cell `école` starts with the lowercase letter `é`, and `ReadCSV`
records it under the key `école`, not under its title-cased form `École`: the
first-character test of lines 141-143 reads the first byte, 0xC3, and
`string(0xC3)` is `Ã`, which is its own upper case. -/
theorem C5_non_ascii_lowercase_kept_verbatim :
    ReadCSV latin1Tables detailOpts "WG1\nécole\n".toList
      = .ok [("école".toList, ["WG1".toList])]
    ∧ byteAt0 "école".toList = some 0xC3
    ∧ stringOfByte 0xC3 = "Ã".toList
    ∧ ToUpper latin1Tables (stringOfByte 0xC3) = stringOfByte 0xC3
    ∧ Title latin1Tables (ToLower latin1Tables "école".toList) = "École".toList := by
  decide

/-- The data cells are the cells of the rows after the first, with their columns. -/
theorem mem_dataCells (records : List (List GoString)) (p : Nat × GoString) :
    p ∈ dataCells records ↔ ∃ row ∈ records.drop 1, row[p.1]? = some p.2 := by
  obtain ⟨i, c⟩ := p
  simp only [dataCells, List.mem_flatMap]
  constructor
  · rintro ⟨row, hrow, hp⟩
    exact ⟨row, hrow, (List.mk_mem_enum_iff_getElem?).1 hp⟩
  · rintro ⟨row, hrow, hp⟩
    exact ⟨row, hrow, (List.mk_mem_enum_iff_getElem?).2 hp⟩

/-- C9: every working-group name in a value of a mapping returned by `ReadCSV`,
in either mode, is the header entry `records[0][i]` itself, for the column `i`
of an included data cell whose normalised keyword is the key; nothing is
applied to it. -/
theorem C9_values_are_header_entries (U : CaseTables) (opts : options)
    (text : GoString) (m : KwMap) (h : ReadCSV U opts text = .ok m) :
    ∃ records, ReadAll 0 text = .ok records ∧
      ∀ k wg, wg ∈ mapIndex m k →
        ∃ i cell, (∃ row ∈ records.drop 1, row[i]? = some cell)
          ∧ specIncluded opts cell = true ∧ normaliseKeyword U cell = some k
          ∧ headerAt records i = some wg := by
  simp only [ReadCSV] at h
  cases hr : ReadAll 0 text with
  | error e => simp [hr] at h
  | ok records =>
    simp only [hr, pivot_eq_cellsLoop] at h
    obtain ⟨hv, _, _⟩ := cellsLoop_spec U opts records (dataCells records) [] m h
    refine ⟨records, rfl, ?_⟩
    intro k wg hwg
    have h1 : some wg ∈ (mapIndex m k).map some := List.mem_map_of_mem _ hwg
    rw [hv k] at h1
    simp only [mapIndex, List.map_nil, List.nil_append, List.mem_map] at h1
    obtain ⟨p, hp, hpw⟩ := h1
    simp only [cellsOfKey, List.mem_filter, Bool.and_eq_true, decide_eq_true_eq] at hp
    obtain ⟨hmem, hinc, hk⟩ := hp
    exact ⟨p.1, p.2, (mem_dataCells records p).1 hmem, hinc, hk, hpw⟩

/-- C9, witness: the statement at the input of the test, in detail mode. -/
theorem C9_values_are_header_entries_witness :
    ∃ records, ReadAll 0 testInput = .ok records ∧
      ∀ k wg, wg ∈ mapIndex [("Kw1".toList, ["WG1".toList, "WG2".toList]),
          ("Kw2".toList, ["WG2".toList, "WG3".toList]), ("Kw3".toList, ["WG3".toList]),
          ("Kw4".toList, ["WG1".toList]), ("Kw5".toList, ["WG2".toList])] k →
        ∃ i cell, (∃ row ∈ records.drop 1, row[i]? = some cell)
          ∧ specIncluded detailOpts cell = true ∧ normaliseKeyword latin1Tables cell = some k
          ∧ headerAt records i = some wg :=
  C9_values_are_header_entries latin1Tables detailOpts testInput _ (by decide)

/-! ## Failures of the loops -/

/-- How one turn of the inner loop can fail. -/
theorem cellStep_error (U : CaseTables) (opts : options) (records : List (List GoString))
    (kw : KwMap) (i : Nat) (cell : GoString) (e : Failure)
    (h : cellStep U opts records kw i cell = .error e) :
    specIncluded opts cell = true ∧
      ((e = .keywordIndex ∧ normaliseKeyword U cell = none)
        ∨ (e = .headerIndex ∧ headerAt records i = none)) := by
  have hrec : recordKeyword U records kw i cell = .error e →
      (e = .keywordIndex ∧ normaliseKeyword U cell = none)
        ∨ (e = .headerIndex ∧ headerAt records i = none) := by
    intro hr
    simp only [recordKeyword] at hr
    cases hk : normaliseKeyword U cell with
    | none =>
      simp [hk] at hr
      exact Or.inl ⟨hr.symm, rfl⟩
    | some k =>
      cases hw : headerAt records i with
      | none =>
        simp [hk, hw] at hr
        exact Or.inr ⟨hr.symm, rfl⟩
      | some wg => simp [hk, hw] at hr
  simp only [cellStep, Contains] at h
  by_cases hc : cell = []
  · simp [hc] at h
  · by_cases ho : opts.overview = true
    · by_cases hs : '*' ∈ cell
      · simp [hc, ho, hs] at h
        exact ⟨by simp [specIncluded, hc, ho, hs], hrec h⟩
      · simp [hc, ho, hs] at h
    · simp [hc, ho] at h
      exact ⟨by simp [specIncluded, hc, ho], hrec h⟩

/-- How the loops can fail: at an included cell, on its keyword or on its header entry. -/
theorem cellsLoop_error (U : CaseTables) (opts : options) (records : List (List GoString))
    (cells : List (Nat × GoString)) :
    ∀ (kw : KwMap) (e : Failure), cellsLoop U opts records cells kw = .error e →
      ∃ p ∈ cells, specIncluded opts p.2 = true ∧
        ((e = .keywordIndex ∧ normaliseKeyword U p.2 = none)
          ∨ (e = .headerIndex ∧ headerAt records p.1 = none)) := by
  induction cells with
  | nil => intro kw e h; simp [cellsLoop] at h
  | cons q rest ih =>
    intro kw e h
    simp only [cellsLoop] at h
    cases hs : cellStep U opts records kw q.1 q.2 with
    | error e' =>
      simp only [hs] at h
      cases h
      exact ⟨q, List.mem_cons_self _ _, cellStep_error U opts records kw q.1 q.2 e hs⟩
    | ok kw' =>
      simp only [hs] at h
      obtain ⟨p, hp, hrest⟩ := ih kw' e h
      exact ⟨p, List.mem_cons_of_mem _ hp, hrest⟩

/-- On records with one field count, every data cell has a header entry. -/
theorem headerAt_of_uniform (records : List (List GoString)) (hu : uniformFieldCount records)
    (p : Nat × GoString) (hp : p ∈ dataCells records) : ∃ wg, headerAt records p.1 = some wg := by
  obtain ⟨row, hrow, hcell⟩ := (mem_dataCells records p).1 hp
  cases records with
  | nil => simp at hrow
  | cons header rows =>
    have hlen : row.length = header.length := by
      have := hu row (List.mem_cons_of_mem _ (by simpa using hrow))
      simpa using this
    have hi : p.1 < row.length := by
      by_contra hcon
      rw [List.getElem?_eq_none (by omega)] at hcell
      cases hcell
    have hlt : p.1 < header.length := by omega
    exact ⟨header[p.1], by simp [headerAt, List.getElem?_eq_getElem hlt]⟩

/-- A text of white space only trims to the empty string. -/
theorem TrimSpace_eq_nil (s : GoString) (h : ∀ c ∈ s, unicodeIsSpace c = true) :
    TrimSpace s = [] := by
  have : s.dropWhile unicodeIsSpace = [] := List.dropWhile_eq_nil_iff.2 h
  simp [TrimSpace, this]

/-- C7, refuted as stated: the cell ` * `, made of `*` and white space only,
normalises to `*`, not to the empty string, and `ReadCSV` returns a mapping
with the key `*` in both modes. -/
theorem C7_counterexample :
    normaliseKeyword latin1Tables " * ".toList = some "*".toList
    ∧ ReadCSV latin1Tables detailOpts "WG1\n * \n".toList = .ok [("*".toList, ["WG1".toList])]
    ∧ ReadCSV latin1Tables overviewOpts "WG1\n * \n".toList
        = .ok [("*".toList, ["WG1".toList])] := by
  decide

/-- C7, amended: for every non-empty data cell whose text between its leading
and its trailing run of `*` is white space only (`*`, `**`, `* `, but not
` * `), normalisation yields the empty string, and `ReadCSV` in detail mode,
and in overview mode when the cell contains `*`, fails with the
index-out-of-range panic of `keyword[0]` instead of returning a mapping. -/
theorem C7_marker_only_cell_panics (U : CaseTables) (opts : options) (text : GoString)
    (records : List (List GoString)) (p : Nat × GoString)
    (hr : ReadAll 0 text = .ok records) (hp : p ∈ dataCells records) (hne : p.2 ≠ [])
    (hws : ∀ c ∈ Trim p.2 '*', unicodeIsSpace c = true)
    (hov : opts.overview = true → '*' ∈ p.2) :
    TrimSpace (Trim p.2 '*') = [] ∧ normaliseKeyword U p.2 = none
      ∧ ReadCSV U opts text = .error .keywordIndex := by
  have h1 : TrimSpace (Trim p.2 '*') = [] := TrimSpace_eq_nil _ hws
  have h2 : normaliseKeyword U p.2 = none := (normaliseKeyword_none U p.2).2 h1
  refine ⟨h1, h2, ?_⟩
  have hinc : specIncluded opts p.2 = true := by
    by_cases ho : opts.overview = true
    · simp [specIncluded, hne, ho, hov ho]
    · simp [specIncluded, hne, ho]
  simp only [ReadCSV, hr, pivot_eq_cellsLoop]
  cases hres : cellsLoop U opts records (dataCells records) [] with
  | ok m =>
    obtain ⟨k, _, hk, _⟩ := cellsLoop_included U opts records _ [] m hres p hp hinc
    rw [h2] at hk
    cases hk
  | error e =>
    obtain ⟨q, hq, _, hcase⟩ := cellsLoop_error U opts records _ [] e hres
    rcases hcase with ⟨rfl, _⟩ | ⟨_, hnone⟩
    · rfl
    · obtain ⟨wg, hwg⟩ := headerAt_of_uniform records (ReadAll_uniform text records hr) q hq
      rw [hwg] at hnone
      cases hnone

/-- C7, witness: the amended statement at an overview cell of markers, a space and a tab. -/
theorem C7_marker_only_cell_panics_witness :
    TrimSpace (Trim "** \t*".toList '*') = [] ∧ normaliseKeyword latin1Tables "** \t*".toList = none
      ∧ ReadCSV latin1Tables overviewOpts "WG1,WG2\n*TLS,** \t*\n".toList = .error .keywordIndex :=
  C7_marker_only_cell_panics latin1Tables overviewOpts "WG1,WG2\n*TLS,** \t*\n".toList
    [["WG1".toList, "WG2".toList], ["*TLS".toList, "** \t*".toList]] (1, "** \t*".toList)
    (by decide) (by decide) (by decide) (by decide) (by decide)

/-! ## What one cell contributes -/

/-- The data cells of records given with one cell singled out. -/
theorem dataCells_split (hdr : List GoString) (R1 : List (List GoString)) (C1 : List GoString)
    (c : GoString) (C2 : List GoString) (R2 : List (List GoString)) :
    dataCells (hdr :: (R1 ++ (C1 ++ c :: C2) :: R2)) =
      (R1.flatMap (fun row => row.enum) ++ C1.enum)
        ++ (C1.length, c) :: (C2.enumFrom (C1.length + 1) ++ R2.flatMap (fun row => row.enum)) := by
  simp [dataCells, List.flatMap_append, List.enum, List.enumFrom_append]

/-- A turn of the inner loop reads the records through the header entry only. -/
theorem cellStep_header_congr (U : CaseTables) (opts : options)
    (r1 r2 : List (List GoString)) (hh : ∀ i, headerAt r1 i = headerAt r2 i)
    (kw : KwMap) (i : Nat) (cell : GoString) :
    cellStep U opts r1 kw i cell = cellStep U opts r2 kw i cell := by
  simp [cellStep, recordKeyword, hh]

/-- The loops read the records through the header entries only. -/
theorem cellsLoop_header_congr (U : CaseTables) (opts : options)
    (r1 r2 : List (List GoString)) (hh : ∀ i, headerAt r1 i = headerAt r2 i)
    (cells : List (Nat × GoString)) :
    ∀ kw, cellsLoop U opts r1 cells kw = cellsLoop U opts r2 cells kw := by
  induction cells with
  | nil => intro kw; simp [cellsLoop]
  | cons p rest ih =>
    intro kw
    simp only [cellsLoop, cellStep_header_congr U opts r1 r2 hh]
    cases cellStep U opts r2 kw p.1 p.2 with
    | error e => rfl
    | ok kw' => exact ih kw'

/-- Whether the loops return does not depend on the map they start from. -/
theorem cellsLoop_ok_any (U : CaseTables) (opts : options) (records : List (List GoString))
    (cells : List (Nat × GoString)) :
    ∀ (kw m kw' : KwMap), cellsLoop U opts records cells kw = .ok m →
      ∃ m', cellsLoop U opts records cells kw' = .ok m' := by
  induction cells with
  | nil => intro kw m kw' _; exact ⟨kw', by simp [cellsLoop]⟩
  | cons p rest ih =>
    intro kw m kw' h
    simp only [cellsLoop] at h
    cases hs : cellStep U opts records kw p.1 p.2 with
    | error e => simp [hs] at h
    | ok kw1 =>
      simp only [hs] at h
      rcases cellStep_ok U opts records kw kw1 p.1 p.2 hs with ⟨hinc, _⟩ | ⟨hinc, k, wg, hk, hw, _⟩
      · have : cellStep U opts records kw' p.1 p.2 = .ok kw' := by
          simp only [specIncluded, Bool.and_eq_false_iff, decide_eq_false_iff_not,
            Decidable.not_not, Bool.or_eq_false_iff, Bool.not_eq_false'] at hinc
          simp only [cellStep, Contains]
          rcases hinc with hc | ⟨ho, hs'⟩
          · simp [hc]
          · simp [ho, hs']
        simp only [cellsLoop, this]
        exact ih kw1 m kw' h
      · have : cellStep U opts records kw' p.1 p.2
            = .ok (mapAssign kw' k (mapIndex kw' k ++ [wg])) := by
          simp only [specIncluded, Bool.and_eq_true, decide_eq_true_eq, Bool.or_eq_true,
            Bool.not_eq_true'] at hinc
          simp only [cellStep, Contains, recordKeyword, hk, hw]
          rcases hinc with ⟨hc, ho | hs'⟩
          · simp [hc, ho]
          · simp [hc, hs']
        simp only [cellsLoop, this]
        exact ih kw1 m _ h

/-- The values after the loops: the values before, then the header entries of
the included cells of each key, in scan order. -/
theorem cellsLoop_index (U : CaseTables) (opts : options) (records : List (List GoString))
    (cells : List (Nat × GoString)) :
    ∀ (kw m : KwMap), cellsLoop U opts records cells kw = .ok m →
      ∀ k, mapIndex m k =
        mapIndex kw k ++ (cellsOfKey U opts k cells).filterMap (fun p => headerAt records p.1) := by
  induction cells with
  | nil =>
    intro kw m h k
    simp only [cellsLoop] at h
    cases h
    simp [cellsOfKey]
  | cons p rest ih =>
    intro kw m h k
    simp only [cellsLoop] at h
    cases hs : cellStep U opts records kw p.1 p.2 with
    | error e => simp [hs] at h
    | ok kw' =>
      simp only [hs] at h
      rw [ih kw' m h k]
      rcases cellStep_ok U opts records kw kw' p.1 p.2 hs with ⟨hinc, rfl⟩ | ⟨hinc, k0, wg, hk0, hwg, rfl⟩
      · simp [cellsOfKey, List.filter_cons, hinc]
      · rw [mapIndex_mapAssign]
        by_cases hkk : k0 = k
        · subst hkk
          simp [cellsOfKey, List.filter_cons, hinc, hk0, hwg]
        · simp [cellsOfKey, List.filter_cons, hinc, hk0, hkk]


/-- The loops over two lists of cells in a row, when they return. -/
theorem cellsLoop_append_ok (U : CaseTables) (opts : options) (records : List (List GoString))
    (a b : List (Nat × GoString)) (kw m : KwMap)
    (h : cellsLoop U opts records (a ++ b) kw = .ok m) :
    ∃ m1, cellsLoop U opts records a kw = .ok m1 ∧ cellsLoop U opts records b m1 = .ok m := by
  rw [cellsLoop_append] at h
  cases h1 : cellsLoop U opts records a kw with
  | error e => simp [h1] at h
  | ok m1 =>
    simp only [h1] at h
    exact ⟨m1, rfl, h⟩

/-- Two cell texts on which a turn of the inner loop does the same can be
exchanged in the list of cells. -/
theorem cellsLoop_exchange (U : CaseTables) (opts : options) (records : List (List GoString))
    (a b : List (Nat × GoString)) (i : Nat) (c1 c2 : GoString)
    (hc : ∀ kw, cellStep U opts records kw i c1 = cellStep U opts records kw i c2) (kw : KwMap) :
    cellsLoop U opts records (a ++ (i, c1) :: b) kw
      = cellsLoop U opts records (a ++ (i, c2) :: b) kw := by
  rw [cellsLoop_append, cellsLoop_append]
  cases cellsLoop U opts records a kw with
  | error e => rfl
  | ok m1 => simp only [cellsLoop, hc]

/-- C6, refuted as stated in its second part: the cell of one space has no
`*` and is not empty, and in detail mode `ReadCSV` on a parsable input that
holds it returns no mapping: it panics at `keyword[0]`, so the cell
contributes nothing. -/
theorem C6_counterexample :
    ReadAll 0 "WG1\n \nTLS\n".toList = .ok [["WG1".toList], [" ".toList], ["TLS".toList]]
    ∧ '*' ∉ " ".toList ∧ " ".toList ≠ []
    ∧ ReadCSV latin1Tables detailOpts "WG1\n \nTLS\n".toList = .error .keywordIndex := by
  decide

/-- C6, amended. For a parsable input and a data cell of it (the records are
given with the cell singled out, in column `C1.length`): (1) in overview mode,
a cell without `*` contributes no entry: its turn of the inner loop leaves the
map as it is, and `ReadCSV` yields what its loops yield on the records with
that cell emptied; (2) in detail mode, whenever `ReadCSV` returns a mapping,
a non-empty cell has contributed exactly one entry: against the mapping of
the records with that cell emptied, the header entry of its column is
inserted once into the value of its normalised keyword, and the values of all
other keys are the same. -/
theorem C6_overview_gate_and_detail_inclusion (U : CaseTables) (opts : options)
    (text : GoString) (hdr : List GoString) (R1 : List (List GoString)) (C1 : List GoString)
    (cell : GoString) (C2 : List GoString) (R2 : List (List GoString))
    (hr : ReadAll 0 text = .ok (hdr :: (R1 ++ (C1 ++ cell :: C2) :: R2))) :
    (opts.overview = true → '*' ∉ cell →
      (∀ kw, cellStep U opts (hdr :: (R1 ++ (C1 ++ cell :: C2) :: R2)) kw C1.length cell = .ok kw)
      ∧ ReadCSV U opts text = pivot U opts (hdr :: (R1 ++ (C1 ++ [] :: C2) :: R2)))
    ∧ (opts.overview = false → cell ≠ [] → ∀ m, ReadCSV U opts text = .ok m →
      ∃ k wg m' pre post, normaliseKeyword U cell = some k ∧ hdr[C1.length]? = some wg
        ∧ pivot U opts (hdr :: (R1 ++ (C1 ++ [] :: C2) :: R2)) = .ok m'
        ∧ mapIndex m' k = pre ++ post ∧ mapIndex m k = pre ++ wg :: post
        ∧ ∀ k', k' ≠ k → mapIndex m k' = mapIndex m' k') := by
  have hh : ∀ i, headerAt (hdr :: (R1 ++ (C1 ++ [] :: C2) :: R2)) i
      = headerAt (hdr :: (R1 ++ (C1 ++ cell :: C2) :: R2)) i := fun i => rfl
  have hblank : ∀ kw, cellStep U opts (hdr :: (R1 ++ (C1 ++ cell :: C2) :: R2)) kw C1.length []
      = .ok kw := by
    intro kw; simp [cellStep]
  constructor
  · intro ho hs
    have hstep : ∀ kw,
        cellStep U opts (hdr :: (R1 ++ (C1 ++ cell :: C2) :: R2)) kw C1.length cell = .ok kw := by
      intro kw
      by_cases hc : cell = [] <;> simp [cellStep, Contains, ho, hs, hc]
    refine ⟨hstep, ?_⟩
    simp only [ReadCSV, hr, pivot_eq_cellsLoop, dataCells_split]
    rw [cellsLoop_header_congr U opts _ _ hh]
    exact cellsLoop_exchange U opts _ _ _ _ _ _ (fun kw => by rw [hstep, hblank]) []
  · intro ho hc m hm
    simp only [ReadCSV, hr, pivot_eq_cellsLoop, dataCells_split] at hm
    obtain ⟨m1, hA, hrest⟩ := cellsLoop_append_ok U opts _ _ _ _ _ hm
    simp only [cellsLoop] at hrest
    cases hs : cellStep U opts (hdr :: (R1 ++ (C1 ++ cell :: C2) :: R2)) m1 C1.length cell with
    | error e => simp [hs] at hrest
    | ok m2 =>
      simp only [hs] at hrest
      have hinc : specIncluded opts cell = true := by simp [specIncluded, hc, ho]
      rcases cellStep_ok U opts _ m1 m2 C1.length cell hs with ⟨hx, _⟩ | ⟨_, k, wg, hk, hw, rfl⟩
      · rw [hx] at hinc; cases hinc
      · obtain ⟨m', hm'⟩ := cellsLoop_ok_any U opts _ _ _ m m1 hrest
        have hi := cellsLoop_index U opts _ _ _ m hrest
        have hi' := cellsLoop_index U opts _ _ m1 m' hm'
        refine ⟨k, wg, m', mapIndex m1 k, _, hk, hw, ?_, hi' k, ?_, ?_⟩
        · simp only [pivot_eq_cellsLoop, dataCells_split]
          rw [cellsLoop_header_congr U opts _ _ hh, cellsLoop_append, hA]
          simp only [cellsLoop, hblank]
          exact hm'
        · rw [hi k, mapIndex_mapAssign]
          simp
        · intro k' hk'
          have : ¬ k = k' := fun h => hk' h.symm
          rw [hi k', hi' k', mapIndex_mapAssign]
          simp [this]

/-- C6, witness: the amended statement at the cell `quic` of a two-column input, in both modes. -/
theorem C6_overview_gate_and_detail_inclusion_witness :
    ((∀ kw, cellStep latin1Tables overviewOpts
        [["WG1".toList, "WG2".toList], ["*TLS".toList, "quic".toList]] kw 1 "quic".toList = .ok kw)
      ∧ ReadCSV latin1Tables overviewOpts "WG1,WG2\n*TLS,quic\n".toList
        = pivot latin1Tables overviewOpts
            [["WG1".toList, "WG2".toList], ["*TLS".toList, []]])
    ∧ ∃ k wg m' pre post, normaliseKeyword latin1Tables "quic".toList = some k
        ∧ ["WG1".toList, "WG2".toList][1]? = some wg
        ∧ pivot latin1Tables detailOpts [["WG1".toList, "WG2".toList], ["*TLS".toList, []]]
            = .ok m'
        ∧ mapIndex m' k = pre ++ post
        ∧ mapIndex [("TLS".toList, ["WG1".toList]), ("Quic".toList, ["WG2".toList])] k
            = pre ++ wg :: post
        ∧ ∀ k', k' ≠ k →
            mapIndex [("TLS".toList, ["WG1".toList]), ("Quic".toList, ["WG2".toList])] k'
              = mapIndex m' k' :=
  ⟨(C6_overview_gate_and_detail_inclusion latin1Tables overviewOpts
      "WG1,WG2\n*TLS,quic\n".toList ["WG1".toList, "WG2".toList] [] ["*TLS".toList]
      "quic".toList [] [] (by decide)).1 (by decide) (by decide),
   (C6_overview_gate_and_detail_inclusion latin1Tables detailOpts
      "WG1,WG2\n*TLS,quic\n".toList ["WG1".toList, "WG2".toList] [] ["*TLS".toList]
      "quic".toList [] [] (by decide)).2 (by decide) (by decide) _ (by decide)⟩

/-! ## The entries of GenerateHTML -/

/-- A code point is determined by its number. -/
theorem char_eq_of_toNat_eq (c d : Char) (h : c.toNat = d.toNat) : c = d := by
  rw [← Char.ofNat_toNat c, ← Char.ofNat_toNat d, h]

/-- UTF-8 is a prefix code: equal byte strings start with equal code points. -/
theorem utf8EncodeRune_append_inj (c d : Char) (x y : List Nat)
    (h : utf8EncodeRune c ++ x = utf8EncodeRune d ++ y) : c = d ∧ x = y := by
  simp only [utf8EncodeRune] at h
  split_ifs at h <;>
    simp only [List.cons_append, List.nil_append, List.cons.injEq] at h <;>
    first
      | (exfalso; omega)
      | exact ⟨char_eq_of_toNat_eq c d (by omega), by simp [h]⟩

/-- Strings with the same bytes are the same string. -/
theorem bytes_injective : ∀ (s t : GoString), bytes s = bytes t → s = t := by
  intro s
  induction s with
  | nil =>
    intro t h
    cases t with
    | nil => rfl
    | cons d t' =>
      exfalso
      have hd := utf8EncodeRune_ne_nil d
      simp only [bytes, List.flatMap_nil, List.flatMap_cons] at h
      have hl := congrArg List.length h
      have hpos : 0 < (utf8EncodeRune d).length := List.length_pos.2 hd
      simp only [List.length_nil, List.length_append] at hl
      omega
  | cons c s' ih =>
    intro t h
    cases t with
    | nil =>
      exfalso
      have hd := utf8EncodeRune_ne_nil c
      simp only [bytes, List.flatMap_nil, List.flatMap_cons] at h
      have hl := congrArg List.length h
      have hpos : 0 < (utf8EncodeRune c).length := List.length_pos.2 hd
      simp only [List.length_nil, List.length_append] at hl
      omega
    | cons d t' =>
      simp only [bytes, List.flatMap_cons] at h
      obtain ⟨hcd, hrest⟩ := utf8EncodeRune_append_inj c d _ _ h
      rw [hcd, ih t' hrest]

/-- The order of byte strings is the lexicographic one: the empty string is
below every other, and two non-empty strings compare by their first bytes,
then by the rest. -/
theorem byte_order_lexicographic (a b : Nat) (x y : List Nat) :
    (([] : List Nat) < b :: y) ∧ ¬ (x < []) ∧
    ((a :: x < b :: y) ↔ (a < b ∨ (a = b ∧ x < y))) := by
  refine ⟨List.Lex.nil, ?_, ?_⟩
  · intro h; cases h
  · constructor
    · intro h
      cases h with
      | cons h => exact Or.inr ⟨rfl, h⟩
      | rel h => exact Or.inl h
    · rintro (h | ⟨rfl, h⟩)
      · exact List.Lex.rel h
      · exact List.Lex.cons h

/-- The order of strings is total. -/
theorem stringLE_total (a b : GoString) : stringLE a b ∨ stringLE b a :=
  le_total (bytes a) (bytes b)

/-- The order of strings is transitive. -/
theorem stringLE_trans (a b c : GoString) (h1 : stringLE a b) (h2 : stringLE b c) :
    stringLE a c :=
  le_trans (α := List Nat) h1 h2

/-- Strings that are each below the other are equal. -/
theorem stringLE_antisymm (a b : GoString) (h1 : stringLE a b) (h2 : stringLE b a) : a = b :=
  bytes_injective a b (le_antisymm (α := List Nat) h1 h2)

/-- `sort.Strings` leaves the keys in ascending order. -/
theorem sortStrings_sorted (keys : List GoString) : (sortStrings keys).Sorted stringLE := by
  haveI : IsTotal GoString stringLE := ⟨stringLE_total⟩
  haveI : IsTrans GoString stringLE := ⟨stringLE_trans⟩
  exact List.sorted_insertionSort stringLE keys

/-- `sort.Strings` rearranges the keys. -/
theorem sortStrings_perm (keys : List GoString) : (sortStrings keys).Perm keys :=
  List.perm_insertionSort stringLE keys

/-- The sorted keys do not depend on the order they were collected in. -/
theorem sortStrings_eq_of_perm (k1 k2 : List GoString) (h : k1.Perm k2) :
    sortStrings k1 = sortStrings k2 := by
  haveI : IsAntisymm GoString stringLE := ⟨stringLE_antisymm⟩
  exact List.eq_of_perm_of_sorted
    (((sortStrings_perm k1).trans h).trans (sortStrings_perm k2).symm)
    (sortStrings_sorted k1) (sortStrings_sorted k2)

/-- The first loop of `GenerateHTML` collects the keys as visited. -/
theorem collectKeys_eq (visited : List GoString) : collectKeys visited = visited := by
  have : ∀ (l acc : List GoString), l.foldl (fun keys kw => keys ++ [kw]) acc = acc ++ l := by
    intro l
    induction l with
    | nil => intro acc; simp
    | cons x r ih => intro acc; simp [ih]
  simpa [collectKeys] using this visited []

/-- A loop that appends one element per turn is a map. -/
theorem foldl_append_singleton {α β : Type} (f : α → β) (l : List α) :
    ∀ acc, l.foldl (fun r x => r ++ [f x]) acc = acc ++ l.map f := by
  induction l with
  | nil => intro acc; simp
  | cons x r ih => intro acc; simp [ih]

/-- The entries of `GenerateHTML`: one per sorted key. -/
theorem GenerateHTML_result_eq (visited : List GoString) (keywords : KwMap) :
    GenerateHTML_result visited keywords
      = (sortStrings visited).map (fun kw => ⟨kw, copyWGs keywords kw⟩) := by
  simp [GenerateHTML_result, collectKeys_eq, foldl_append_singleton]

/-- The copy loop of `GenerateHTML` copies the value. -/
theorem copyWGs_eq (keywords : KwMap) (kw : GoString) :
    copyWGs keywords kw = mapIndex keywords kw := by
  have key : ∀ (l : List GoString) (n : Nat), n ≤ l.length →
      (List.range n).foldl (fun wglist wg => wglist ++ [l.getD wg []]) [] = l.take n := by
    intro l n
    induction n with
    | zero => intro _; simp
    | succ n ih =>
      intro hn
      rw [List.range_succ, List.foldl_append, ih (by omega)]
      simp only [List.foldl_cons, List.foldl_nil]
      have hlt : n < l.length := by omega
      rw [List.take_succ, List.getD_eq_getElem?_getD, List.getElem?_eq_getElem hlt]
      simp
  simpa [copyWGs] using key (mapIndex keywords kw) _ (le_refl _)


/-- The keywords of the entries are the sorted keys. -/
theorem GenerateHTML_result_keywords (visited : List GoString) (keywords : KwMap) :
    (GenerateHTML_result visited keywords).map kwmap.Keyword = sortStrings visited := by
  simp [GenerateHTML_result_eq, Function.comp_def]

/-- C8: for every keyword mapping (its keys are distinct) and every order in
which `range` visits its keys, the `Keyword` fields of the entries handed to
the template are in strictly ascending byte-wise lexicographic order and are
a permutation of the keys of the mapping; hence the entries are the same for
every order of visit. -/
theorem C8_keywords_sorted (keywords : KwMap) (visited : List GoString)
    (hn : (mapKeys keywords).Nodup) (hv : visited.Perm (mapKeys keywords)) :
    ((GenerateHTML_result visited keywords).map kwmap.Keyword).Sorted stringLT
    ∧ ((GenerateHTML_result visited keywords).map kwmap.Keyword).Perm (mapKeys keywords)
    ∧ ∀ visited', visited'.Perm (mapKeys keywords) →
        GenerateHTML_result visited' keywords = GenerateHTML_result visited keywords := by
  rw [GenerateHTML_result_keywords]
  have hperm : (sortStrings visited).Perm (mapKeys keywords) := (sortStrings_perm visited).trans hv
  refine ⟨?_, hperm, ?_⟩
  · have hnd : (sortStrings visited).Nodup := hperm.nodup_iff.2 hn
    have hboth := List.Pairwise.and (sortStrings_sorted visited) hnd
    refine hboth.imp ?_
    rintro a b ⟨hle, hne⟩
    exact lt_of_le_of_ne (α := List Nat) hle (fun h => hne (bytes_injective a b h))
  · intro visited' hv'
    rw [GenerateHTML_result_eq, GenerateHTML_result_eq,
      sortStrings_eq_of_perm visited' visited (hv'.trans hv.symm)]

/-- C8, witness: the statement at a mapping of four keys, one of them not ASCII. -/
theorem C8_keywords_sorted_witness :
    ((GenerateHTML_result sampleVisited sampleKeywords).map kwmap.Keyword).Sorted stringLT
    ∧ ((GenerateHTML_result sampleVisited sampleKeywords).map kwmap.Keyword).Perm
        (mapKeys sampleKeywords)
    ∧ ∀ visited', visited'.Perm (mapKeys sampleKeywords) →
        GenerateHTML_result visited' sampleKeywords
          = GenerateHTML_result sampleVisited sampleKeywords :=
  C8_keywords_sorted sampleKeywords sampleVisited (by decide) (by decide)

/-- C10: `GenerateHTML` keeps the working groups as they are: the `WGs` of every
entry is the value of the mapping for the `Keyword` of the entry, the same
sequence, and every key of the mapping has its entry; there are as many
entries as keys. -/
theorem C10_working_groups_copied_in_order (keywords : KwMap) (visited : List GoString)
    (hv : visited.Perm (mapKeys keywords)) :
    (∀ e ∈ GenerateHTML_result visited keywords, e.WGs = mapIndex keywords e.Keyword)
    ∧ (∀ k ∈ mapKeys keywords,
        (⟨k, mapIndex keywords k⟩ : kwmap) ∈ GenerateHTML_result visited keywords)
    ∧ (GenerateHTML_result visited keywords).length = (mapKeys keywords).length := by
  rw [GenerateHTML_result_eq]
  refine ⟨?_, ?_, ?_⟩
  · intro e he
    obtain ⟨kw, _, rfl⟩ := List.mem_map.1 he
    exact copyWGs_eq keywords kw
  · intro k hk
    refine List.mem_map.2 ⟨k, ?_, by rw [copyWGs_eq]⟩
    exact ((sortStrings_perm visited).trans hv).mem_iff.2 hk
  · rw [List.length_map]
    exact ((sortStrings_perm visited).trans hv).length_eq

/-- C10, witness: the statement at a mapping whose values repeat a working
group and are not in alphabetical order. -/
theorem C10_working_groups_copied_in_order_witness :
    (∀ e ∈ GenerateHTML_result sampleVisited sampleKeywords,
      e.WGs = mapIndex sampleKeywords e.Keyword)
    ∧ (∀ k ∈ mapKeys sampleKeywords,
        (⟨k, mapIndex sampleKeywords k⟩ : kwmap) ∈ GenerateHTML_result sampleVisited sampleKeywords)
    ∧ (GenerateHTML_result sampleVisited sampleKeywords).length
        = (mapKeys sampleKeywords).length :=
  C10_working_groups_copied_in_order sampleKeywords sampleVisited (by decide)

/-! ## Failures, options and bounds -/

/-- The loops are the same for options and cell lists on which every turn is the same. -/
theorem cellsLoop_congr (U : CaseTables) (o1 o2 : options) (records : List (List GoString))
    (cells : List (Nat × GoString))
    (hc : ∀ p ∈ cells, ∀ kw, cellStep U o1 records kw p.1 p.2 = cellStep U o2 records kw p.1 p.2) :
    ∀ kw, cellsLoop U o1 records cells kw = cellsLoop U o2 records cells kw := by
  induction cells with
  | nil => intro kw; simp [cellsLoop]
  | cons p rest ih =>
    intro kw
    simp only [cellsLoop, hc p (List.mem_cons_self _ _) kw]
    cases cellStep U o2 records kw p.1 p.2 with
    | error e => rfl
    | ok kw' => exact ih (fun q hq => hc q (List.mem_cons_of_mem _ hq)) kw'

/-- C11: for every input text that the CSV reader rejects, `ReadCSV` ends in
`log.Fatal` with the reader's error and returns no mapping, whatever rows came
before the malformed one; `main` then ends with that failure and nothing is
written to standard output. -/
theorem C11_malformed_csv_is_fatal (U : CaseTables) (opts : options)
    (range : KwMap → List GoString) (text : GoString) (err : ParseError)
    (h : ReadAll 0 text = .error err) :
    ReadCSV U opts text = .error (.fatal err)
    ∧ (∀ m, ReadCSV U opts text ≠ .ok m)
    ∧ mainOutput U opts range text = .error (.fatal err) := by
  have h1 : ReadCSV U opts text = .error (.fatal err) := by simp [ReadCSV, h]
  refine ⟨h1, ?_, ?_⟩
  · intro m hm
    rw [h1] at hm
    cases hm
  · simp [mainOutput, h1]

/-- C11, witness: an unbalanced quote in the third row, after two well-formed
rows, in detail mode. -/
theorem C11_malformed_csv_is_fatal_witness :
    ReadCSV latin1Tables detailOpts "WG1,WG2\nkw1,kw2\nkw3,\"kw4\n".toList
      = .error (.fatal .ErrQuote)
    ∧ (∀ m, ReadCSV latin1Tables detailOpts "WG1,WG2\nkw1,kw2\nkw3,\"kw4\n".toList ≠ .ok m)
    ∧ mainOutput latin1Tables detailOpts mapKeys "WG1,WG2\nkw1,kw2\nkw3,\"kw4\n".toList
      = .error (.fatal .ErrQuote) :=
  C11_malformed_csv_is_fatal latin1Tables detailOpts mapKeys
    "WG1,WG2\nkw1,kw2\nkw3,\"kw4\n".toList .ErrQuote (by decide)

/-- C13: the result of `ReadCSV`, mapping or failure, is a function of the
input text and of the `overview` flag only: runs whose options agree on
`overview`, whatever their `debug`, `verbose` and `infile`, have the same
result on the same text. -/
theorem C13_result_depends_on_text_and_overview_only (U : CaseTables) (opts1 opts2 : options)
    (text : GoString) (h : opts1.overview = opts2.overview) :
    ReadCSV U opts1 text = ReadCSV U opts2 text := by
  simp only [ReadCSV]
  cases ReadAll 0 text with
  | error e => rfl
  | ok records =>
    simp only [pivot_eq_cellsLoop]
    exact cellsLoop_congr U opts1 opts2 records _
      (fun p _ kw => by simp only [cellStep, h]) []

/-- C13, witness: the options of the test against options with another input
path and both diagnostic switches set, on the input of the test. -/
theorem C13_result_depends_on_text_and_overview_only_witness :
    ReadCSV latin1Tables detailOpts testInput
      = ReadCSV latin1Tables ⟨"keywords.csv".toList, false, true, true⟩ testInput :=
  C13_result_depends_on_text_and_overview_only latin1Tables detailOpts
    ⟨"keywords.csv".toList, false, true, true⟩ testInput rfl

/-- C17: on every input text that the reader accepts, every row has as many
fields as the header row, every data cell has its header entry
`records[0][i]`, and `ReadCSV`, in either mode, does not fail at the header
lookup: its only failure is the panic of `keyword[0]`. -/
theorem C17_header_lookup_in_bounds (U : CaseTables) (opts : options) (text : GoString)
    (records : List (List GoString)) (h : ReadAll 0 text = .ok records) :
    uniformFieldCount records
    ∧ (∀ p ∈ dataCells records, ∃ wg, headerAt records p.1 = some wg)
    ∧ ReadCSV U opts text ≠ .error .headerIndex
    ∧ (∀ e, ReadCSV U opts text = .error e → e = .keywordIndex) := by
  have hu := ReadAll_uniform text records h
  have hall : ∀ e, ReadCSV U opts text = .error e → e = .keywordIndex := by
    intro e he
    simp only [ReadCSV, h, pivot_eq_cellsLoop] at he
    obtain ⟨q, hq, _, hcase⟩ := cellsLoop_error U opts records _ [] e he
    rcases hcase with ⟨rfl, _⟩ | ⟨_, hnone⟩
    · rfl
    · obtain ⟨wg, hwg⟩ := headerAt_of_uniform records hu q hq
      rw [hwg] at hnone
      cases hnone
  refine ⟨hu, fun p hp => headerAt_of_uniform records hu p hp, ?_, hall⟩
  intro he
  cases hall _ he

/-- C17, witness: the statement at an input with an empty keyword, in detail mode. -/
theorem C17_header_lookup_in_bounds_witness :
    uniformFieldCount [["WG1".toList, "WG2".toList], ["tls".toList, "*".toList]]
    ∧ (∀ p ∈ dataCells [["WG1".toList, "WG2".toList], ["tls".toList, "*".toList]],
        ∃ wg, headerAt [["WG1".toList, "WG2".toList], ["tls".toList, "*".toList]] p.1 = some wg)
    ∧ ReadCSV latin1Tables detailOpts "WG1,WG2\ntls,*\n".toList ≠ .error .headerIndex
    ∧ (∀ e, ReadCSV latin1Tables detailOpts "WG1,WG2\ntls,*\n".toList = .error e →
        e = .keywordIndex) :=
  C17_header_lookup_in_bounds latin1Tables detailOpts "WG1,WG2\ntls,*\n".toList
    [["WG1".toList, "WG2".toList], ["tls".toList, "*".toList]] (by decide)

/-! ## The empty data section -/

/-- The reader at the end of a line without quotes, whose line feed, if any, is its last character. -/
theorem readRecords_plain_line (line : List Char)
    (hl : ∀ c ∈ line, c ≠ '\n' ∧ c ≠ '"') (tail : List Char) (ht : tail = [] ∨ tail = ['\n']) :
    ∀ (st : ReaderState) (field : GoString) (dst : List GoString),
      st = .recordStart ∨ st = .fieldStart ∨ st = .unquoted →
      ∃ records, readRecords st field dst 0 (line ++ tail) = .ok records ∧ records.length ≤ 1 := by
  induction line with
  | nil =>
    intro st field dst hst
    rcases ht with rfl | rfl <;> rcases hst with rfl | rfl | rfl <;>
      simp [readRecords, endRecord, checkFieldCount]
  | cons c rest ih =>
    intro st field dst hst
    have hc := hl c (List.mem_cons_self _ _)
    have ih' := ih (fun d hd => hl d (List.mem_cons_of_mem _ hd))
    rcases hst with rfl | rfl | rfl <;>
      simp only [List.cons_append, readRecords, hc.1, hc.2, if_false] <;>
      split_ifs <;> first
        | exact ih' _ _ _ (Or.inr (Or.inl rfl))
        | exact ih' _ _ _ (Or.inr (Or.inr rfl))


/-- What `readLine` leaves of a line without quotes is such a line again. -/
theorem normalizeNL_plain_line (line : List Char)
    (hl : ∀ c ∈ line, c ≠ '\n' ∧ c ≠ '"') (tail : List Char) (ht : tail = [] ∨ tail = ['\n']) :
    ∃ line', (∀ c ∈ line', c ≠ '\n' ∧ c ≠ '"') ∧ normalizeNL (line ++ tail) = line' ++ tail := by
  induction line with
  | nil =>
    refine ⟨[], by simp, ?_⟩
    rcases ht with rfl | rfl
    · simp [normalizeNL]
    · simp only [List.nil_append, normalizeNL]
      decide
  | cons c rest ih =>
    obtain ⟨line', hl', heq⟩ := ih (fun d hd => hl d (List.mem_cons_of_mem _ hd))
    simp only [List.cons_append, normalizeNL]
    split_ifs
    · exact ⟨line', hl', heq⟩
    · refine ⟨c :: line', ?_, ?_⟩
      swap
      · show c :: normalizeNL (rest ++ tail) = c :: (line' ++ tail)
        rw [heq]
      intro d hd
      rcases List.mem_cons.1 hd with rfl | hd'
      · exact hl d (List.mem_cons_self _ _)
      · exact hl' d hd'

/-- The loops on at most one record return the empty map. -/
theorem pivot_short (U : CaseTables) (opts : options) (records : List (List GoString))
    (h : records.length ≤ 1) : pivot U opts records = .ok [] := by
  cases records with
  | nil => simp [pivot, rowsLoop]
  | cons header rows =>
    cases rows with
    | nil => simp [pivot, rowsLoop]
    | cons r rs => simp at h

/-- The entries for the empty mapping: none. -/
theorem GenerateHTML_result_nil (visited : List GoString)
    (hv : visited.Perm (mapKeys ([] : KwMap))) : GenerateHTML_result visited [] = [] := by
  have : visited = [] := by simpa [mapKeys] using hv
  subst this
  simp [GenerateHTML_result, collectKeys, sortStrings]

/-- C12: on every input that the reader accepts with a header row only, or
with no record at all, `ReadCSV` in either mode returns the empty mapping;
every line without quotes, with or without its line feed, is such an input;
on the empty mapping `GenerateHTML` builds no entry, and the template prints
its list without any item. -/
theorem C12_empty_data_section (U : CaseTables) (opts : options) :
    (∀ text records, ReadAll 0 text = .ok records → records.length ≤ 1 →
      ReadCSV U opts text = .ok [])
    ∧ (∀ line : GoString, (∀ c ∈ line, c ≠ '\n' ∧ c ≠ '"') →
        ReadCSV U opts line = .ok [] ∧ ReadCSV U opts (line ++ ['\n']) = .ok [])
    ∧ (∀ visited, visited.Perm (mapKeys ([] : KwMap)) → GenerateHTML_result visited [] = [])
    ∧ executeBody [] = textBeforeWith ++ textAfterWith := by
  have h1 : ∀ text records, ReadAll 0 text = .ok records → records.length ≤ 1 →
      ReadCSV U opts text = .ok [] := by
    intro text records hr hlen
    simp [ReadCSV, hr, pivot_short U opts records hlen]
  have h2 : ∀ (line tail : GoString), (∀ c ∈ line, c ≠ '\n' ∧ c ≠ '"') →
      (tail = [] ∨ tail = ['\n']) → ReadCSV U opts (line ++ tail) = .ok [] := by
    intro line tail hl ht
    obtain ⟨line', hl', heq⟩ := normalizeNL_plain_line line hl tail ht
    obtain ⟨records, hrec, hlen⟩ :=
      readRecords_plain_line line' hl' tail ht .recordStart [] [] (Or.inl rfl)
    exact h1 (line ++ tail) records (by simp only [ReadAll, heq]; exact hrec) hlen
  refine ⟨h1, ?_, GenerateHTML_result_nil, by simp [executeBody]⟩
  intro line hl
  exact ⟨by simpa using h2 line [] hl (Or.inl rfl), h2 line ['\n'] hl (Or.inr rfl)⟩

/-! ## Case normalisation -/

/-- The first byte of a text that starts with an ASCII character is that character. -/
theorem byteAt0_ascii (c : Char) (rest : GoString) (hc : c.toNat ≤ 0x7F) :
    byteAt0 (c :: rest) = some c.toNat := by
  simp [byteAt0, bytes, utf8EncodeRune, hc]

/-- The first-character test of `ReadCSV` on a text that starts with an ASCII
character: title-casing is applied exactly when that character is a lowercase
letter. -/
theorem normaliseKeyword_ascii (U : CaseTables) (cell : GoString) (c : Char) (rest : GoString)
    (ht : TrimSpace (Trim cell '*') = c :: rest) (hc : c.toNat ≤ 0x7F) :
    normaliseKeyword U cell =
      some (if 0x61 ≤ c.toNat ∧ c.toNat ≤ 0x7A then Title U (ToLower U (c :: rest))
            else c :: rest) := by
  simp only [normaliseKeyword, ht, byteAt0_ascii c rest hc, stringOfByte, Char.ofNat_toNat,
    ToUpper, List.map_cons, List.map_nil, unicodeToUpper, hc, if_true]
  by_cases hl : 0x61 ≤ c.toNat ∧ c.toNat ≤ 0x7A
  · have hne : Char.ofNat (c.toNat - 0x20) ≠ c := by
      intro h
      have := congrArg Char.toNat h
      rw [toNat_ofNat_small _ (by omega)] at this
      omega
    simp [hl, hne.symm]
  · simp [hl]


/-- `strings.Title` character by character: a character is title-cased
exactly when the character before it, or the space that stands before the
first, is a separator. -/
theorem titleFrom_eq_zipWith (U : CaseTables) (s : GoString) :
    ∀ prev, titleFrom U prev s =
      List.zipWith (fun p r => if isSeparator U p then unicodeToTitle U r else r) (prev :: s) s := by
  induction s with
  | nil => intro prev; simp [titleFrom]
  | cons r rest ih => intro prev; simp [titleFrom, ih r]

/-- The ASCII separators of `strings.Title`: all but letters, digits and the underscore. -/
theorem isSeparator_ascii (U : CaseTables) (a : Char) (ha : a.toNat ≤ 0x7F) :
    isSeparator U a = false ↔
      ((0x30 ≤ a.toNat ∧ a.toNat ≤ 0x39) ∨ (0x61 ≤ a.toNat ∧ a.toNat ≤ 0x7A)
        ∨ (0x41 ≤ a.toNat ∧ a.toNat ≤ 0x5A) ∨ a.toNat = 0x5F) := by
  simp only [isSeparator, ha, if_true]
  split_ifs <;> simp <;> omega

/-- The key of an included cell is a key of the mapping returned. -/
theorem key_of_included_cell (U : CaseTables) (opts : options) (text : GoString) (m : KwMap)
    (records : List (List GoString)) (p : Nat × GoString) (k : GoString)
    (h : ReadCSV U opts text = .ok m) (hr : ReadAll 0 text = .ok records)
    (hp : p ∈ dataCells records) (hinc : specIncluded opts p.2 = true)
    (hk : normaliseKeyword U p.2 = some k) : k ∈ mapKeys m := by
  simp only [ReadCSV, hr, pivot_eq_cellsLoop] at h
  obtain ⟨_, hkeys, _⟩ := cellsLoop_spec U opts records _ [] m h
  exact (hkeys k).2 (Or.inr ⟨p, hp, hinc, hk⟩)

/-- C15, refuted as stated: in `foo-bar a/b.c*d` the letters after `-`, `/`,
`.` and `*` are inside a word, and the key has them in upper case. -/
theorem C15_counterexample :
    normaliseKeyword latin1Tables "foo-bar a/b.c*d".toList = some "Foo-Bar A/B.C*D".toList
    ∧ ReadCSV latin1Tables detailOpts "WG1\nfoo-bar a/b.c*d\n".toList
        = .ok [("Foo-Bar A/B.C*D".toList, ["WG1".toList])] := by
  decide

/-- C15, amended: for every included cell whose stripped and trimmed text `t`
starts with an ASCII lowercase letter, the key is `strings.Title` of the
lower-cased `t`: every character of the lower-cased text that is the first,
or that follows a separator, is title-cased, and nothing else is changed. The
separators are those of `strings.Title`, not white space alone: among the ASCII
characters, every one that is not a letter, a digit or the underscore, so that
a letter after `-`, `/`, `.` or `*` is put in upper case like one after a
space. -/
theorem C15_title_case_after_every_separator (U : CaseTables) (opts : options)
    (text : GoString) (m : KwMap) (records : List (List GoString)) (p : Nat × GoString)
    (c : Char) (rest : GoString)
    (h : ReadCSV U opts text = .ok m) (hr : ReadAll 0 text = .ok records)
    (hp : p ∈ dataCells records) (hinc : specIncluded opts p.2 = true)
    (ht : TrimSpace (Trim p.2 '*') = c :: rest) (hlow : 0x61 ≤ c.toNat ∧ c.toNat ≤ 0x7A) :
    normaliseKeyword U p.2 = some (Title U (ToLower U (c :: rest)))
    ∧ Title U (ToLower U (c :: rest)) ∈ mapKeys m
    ∧ Title U (ToLower U (c :: rest)) =
        List.zipWith (fun prev r => if isSeparator U prev then unicodeToTitle U r else r)
          (' ' :: ToLower U (c :: rest)) (ToLower U (c :: rest))
    ∧ (∀ a : Char, a.toNat ≤ 0x7F →
        (isSeparator U a = false ↔
          ((0x30 ≤ a.toNat ∧ a.toNat ≤ 0x39) ∨ (0x61 ≤ a.toNat ∧ a.toNat ≤ 0x7A)
            ∨ (0x41 ≤ a.toNat ∧ a.toNat ≤ 0x5A) ∨ a.toNat = 0x5F)))
    ∧ isSeparator U '-' = true ∧ isSeparator U '/' = true ∧ isSeparator U '.' = true
    ∧ isSeparator U '*' = true ∧ isSeparator U ' ' = true := by
  have hk : normaliseKeyword U p.2 = some (Title U (ToLower U (c :: rest))) := by
    rw [normaliseKeyword_ascii U p.2 c rest ht (by omega), if_pos hlow]
  refine ⟨hk, key_of_included_cell U opts text m records p _ h hr hp hinc hk,
    titleFrom_eq_zipWith U _ ' ', isSeparator_ascii U, rfl, rfl, rfl, rfl, rfl⟩

/-- C15, witness: the amended statement at an overview cell with `/`, `-`, `_` and a digit inside its words. -/
theorem C15_title_case_after_every_separator_witness :
    normaliseKeyword latin1Tables "*tcp/ip over-ipv6_x".toList
      = some (Title latin1Tables (ToLower latin1Tables "tcp/ip over-ipv6_x".toList))
    ∧ Title latin1Tables (ToLower latin1Tables "tcp/ip over-ipv6_x".toList)
        ∈ mapKeys [("Tcp/Ip Over-Ipv6_x".toList, ["WG1".toList])]
    ∧ Title latin1Tables (ToLower latin1Tables "tcp/ip over-ipv6_x".toList) =
        List.zipWith
          (fun prev r => if isSeparator latin1Tables prev then unicodeToTitle latin1Tables r else r)
          (' ' :: ToLower latin1Tables "tcp/ip over-ipv6_x".toList)
          (ToLower latin1Tables "tcp/ip over-ipv6_x".toList)
    ∧ (∀ a : Char, a.toNat ≤ 0x7F →
        (isSeparator latin1Tables a = false ↔
          ((0x30 ≤ a.toNat ∧ a.toNat ≤ 0x39) ∨ (0x61 ≤ a.toNat ∧ a.toNat ≤ 0x7A)
            ∨ (0x41 ≤ a.toNat ∧ a.toNat ≤ 0x5A) ∨ a.toNat = 0x5F)))
    ∧ isSeparator latin1Tables '-' = true ∧ isSeparator latin1Tables '/' = true
    ∧ isSeparator latin1Tables '.' = true ∧ isSeparator latin1Tables '*' = true
    ∧ isSeparator latin1Tables ' ' = true :=
  C15_title_case_after_every_separator latin1Tables overviewOpts
    "WG1\n*tcp/ip over-ipv6_x\n".toList [("Tcp/Ip Over-Ipv6_x".toList, ["WG1".toList])]
    [["WG1".toList], ["*tcp/ip over-ipv6_x".toList]] (0, "*tcp/ip over-ipv6_x".toList)
    't' "cp/ip over-ipv6_x".toList
    (by decide) (by decide) (by decide) (by decide) (by decide) (by decide)

/-- C16, refuted as stated: `5G core` starts with a digit and `.net framework`
with a punctuation character, neither an uppercase letter, and both are kept
as they are; the title-cased lower case of the first would be `5g Core`. -/
theorem C16_counterexample :
    normaliseKeyword latin1Tables "5G core".toList = some "5G core".toList
    ∧ Title latin1Tables (ToLower latin1Tables "5G core".toList) = "5g Core".toList
    ∧ ReadCSV latin1Tables detailOpts "WG1\n5G core\n.net framework\n".toList
        = .ok [("5G core".toList, ["WG1".toList]), (".net framework".toList, ["WG1".toList])] := by
  decide

/-- C16, amended: case normalisation is applied when the first byte of the
stripped and trimmed text `t`, as a one-character string, differs from its
upper case. For every included cell whose `t` starts with an ASCII character,
that is exactly when the character is a lowercase letter: the key is then
the title-cased lower case of `t`; when `t` starts with an uppercase letter,
a digit or a punctuation character, the key is `t` as it is. -/
theorem C16_title_case_iff_ascii_lowercase_first (U : CaseTables) (opts : options)
    (text : GoString) (m : KwMap) (records : List (List GoString)) (p : Nat × GoString)
    (c : Char) (rest : GoString)
    (h : ReadCSV U opts text = .ok m) (hr : ReadAll 0 text = .ok records)
    (hp : p ∈ dataCells records) (hinc : specIncluded opts p.2 = true)
    (ht : TrimSpace (Trim p.2 '*') = c :: rest) (hc : c.toNat ≤ 0x7F) :
    normaliseKeyword U p.2 =
      some (if 0x61 ≤ c.toNat ∧ c.toNat ≤ 0x7A then Title U (ToLower U (c :: rest))
            else c :: rest)
    ∧ (if 0x61 ≤ c.toNat ∧ c.toNat ≤ 0x7A then Title U (ToLower U (c :: rest))
        else c :: rest) ∈ mapKeys m :=
  ⟨normaliseKeyword_ascii U p.2 c rest ht hc,
    key_of_included_cell U opts text m records p _ h hr hp hinc
      (normaliseKeyword_ascii U p.2 c rest ht hc)⟩

/-- C16, witness: the amended statement at the cell `5G core` of a two-column input. -/
theorem C16_title_case_iff_ascii_lowercase_first_witness :
    normaliseKeyword latin1Tables "5G core".toList =
      some (if 0x61 ≤ '5'.toNat ∧ '5'.toNat ≤ 0x7A then
              Title latin1Tables (ToLower latin1Tables ('5' :: "G core".toList))
            else '5' :: "G core".toList)
    ∧ (if 0x61 ≤ '5'.toNat ∧ '5'.toNat ≤ 0x7A then
          Title latin1Tables (ToLower latin1Tables ('5' :: "G core".toList))
        else '5' :: "G core".toList)
        ∈ mapKeys [("5G core".toList, ["WG2".toList]), ("Mobile Core".toList, ["WG2".toList])] :=
  C16_title_case_iff_ascii_lowercase_first latin1Tables detailOpts
    "WG1,WG2\n,5G core\n,mobile core\n".toList
    [("5G core".toList, ["WG2".toList]), ("Mobile Core".toList, ["WG2".toList])]
    [["WG1".toList, "WG2".toList], [[], "5G core".toList], [[], "mobile core".toList]]
    (1, "5G core".toList) '5' "G core".toList
    (by decide) (by decide) (by decide) (by decide) (by decide) (by decide)

/-! ## Overview against detail -/

/-- A turn of the inner loop: the cell is recorded when it is included, and skipped otherwise. -/
theorem cellStep_eq (U : CaseTables) (opts : options) (records : List (List GoString))
    (kw : KwMap) (i : Nat) (cell : GoString) :
    cellStep U opts records kw i cell =
      if specIncluded opts cell = true then recordKeyword U records kw i cell else .ok kw := by
  simp only [cellStep, Contains, specIncluded]
  by_cases hc : cell = [] <;> by_cases ho : opts.overview = true <;>
    by_cases hs : '*' ∈ cell <;> simp [hc, ho, hs]

/-- A cell included in overview mode is included in detail mode. -/
theorem specIncluded_detail_of_overview (oD oO : options) (hD : oD.overview = false)
    (cell : GoString) (h : specIncluded oO cell = true) : specIncluded oD cell = true := by
  simp only [specIncluded, Bool.and_eq_true, decide_eq_true_eq] at h ⊢
  exact ⟨h.1, by simp [hD]⟩

/-- Where the loops return in detail mode, they return in overview mode. -/
theorem cellsLoop_overview_ok (U : CaseTables) (oD oO : options) (hD : oD.overview = false)
    (records : List (List GoString)) (cells : List (Nat × GoString)) :
    ∀ (kw m kw' : KwMap), cellsLoop U oD records cells kw = .ok m →
      ∃ m', cellsLoop U oO records cells kw' = .ok m' := by
  induction cells with
  | nil => intro kw m kw' _; exact ⟨kw', by simp [cellsLoop]⟩
  | cons p rest ih =>
    intro kw m kw' h
    simp only [cellsLoop] at h
    cases hs : cellStep U oD records kw p.1 p.2 with
    | error e => simp [hs] at h
    | ok kw1 =>
      simp only [hs] at h
      by_cases hinc : specIncluded oO p.2 = true
      · have hincD := specIncluded_detail_of_overview oD oO hD p.2 hinc
        rcases cellStep_ok U oD records kw kw1 p.1 p.2 hs with ⟨hx, _⟩ | ⟨_, k, wg, hk, hw, _⟩
        · rw [hx] at hincD; cases hincD
        · have : cellStep U oO records kw' p.1 p.2
              = .ok (mapAssign kw' k (mapIndex kw' k ++ [wg])) := by
            simp [cellStep_eq, hinc, recordKeyword, hk, hw]
          simp only [cellsLoop, this]
          exact ih kw1 m _ h
      · have : cellStep U oO records kw' p.1 p.2 = .ok kw' := by
          simp [cellStep_eq, hinc]
        simp only [cellsLoop, this]
        exact ih kw1 m _ h

/-- The overview cells of a key are among its detail cells, in the same order. -/
theorem cellsOfKey_overview_sublist (U : CaseTables) (oD oO : options)
    (hD : oD.overview = false) (k : GoString) (cells : List (Nat × GoString)) :
    (cellsOfKey U oO k cells).Sublist (cellsOfKey U oD k cells) := by
  simp only [cellsOfKey]
  refine List.monotone_filter_right cells ?_
  intro p
  refine Bool.le_iff_imp.2 ?_
  intro hp
  simp only [Bool.and_eq_true] at hp ⊢
  exact ⟨specIncluded_detail_of_overview oD oO hD p.2 hp.1, hp.2⟩

/-- C18: on every input on which `ReadCSV` returns a mapping `D` in detail
mode, it returns a mapping `O` in overview mode as well; every key of `O` is
a key of `D`, and for every key the value in `O` is a subsequence of the
value in `D`; if every non-empty data cell contains `*`, then `O` is `D`. -/
theorem C18_overview_within_detail (U : CaseTables) (oD oO : options) (text : GoString)
    (D : KwMap) (hD : oD.overview = false) (hO : oO.overview = true)
    (h : ReadCSV U oD text = .ok D) :
    ∃ O, ReadCSV U oO text = .ok O
      ∧ (∀ k ∈ mapKeys O, k ∈ mapKeys D)
      ∧ (∀ k, (mapIndex O k).Sublist (mapIndex D k))
      ∧ ((∀ records, ReadAll 0 text = .ok records →
            ∀ p ∈ dataCells records, p.2 ≠ [] → '*' ∈ p.2) → O = D) := by
  simp only [ReadCSV] at h ⊢
  cases hr : ReadAll 0 text with
  | error e => simp [hr] at h
  | ok records =>
    simp only [hr, pivot_eq_cellsLoop] at h ⊢
    obtain ⟨O, hOk⟩ := cellsLoop_overview_ok U oD oO hD records _ [] D [] h
    refine ⟨O, hOk, ?_, ?_, ?_⟩
    · intro k hk
      obtain ⟨_, hkO, _⟩ := cellsLoop_spec U oO records _ [] O hOk
      obtain ⟨_, hkD, _⟩ := cellsLoop_spec U oD records _ [] D h
      rcases (hkO k).1 hk with h0 | ⟨p, hp, hinc, hn⟩
      · simp [mapKeys] at h0
      · exact (hkD k).2
          (Or.inr ⟨p, hp, specIncluded_detail_of_overview oD oO hD p.2 hinc, hn⟩)
    · intro k
      rw [cellsLoop_index U oO records _ [] O hOk k, cellsLoop_index U oD records _ [] D h k]
      simp only [mapIndex, List.nil_append]
      exact (cellsOfKey_overview_sublist U oD oO hD k _).filterMap _
    · intro hall
      have hcongr := cellsLoop_congr U oO oD records (dataCells records)
        (fun p hp kw => by
          rw [cellStep_eq, cellStep_eq]
          by_cases hc : p.2 = []
          · simp [specIncluded, hc]
          · have hs := hall records rfl p hp hc
            simp [specIncluded, hc, hs, hD, hO]) []
      rw [hcongr, h] at hOk
      exact (Except.ok.inj hOk).symm

/-- C18, witness: the statement at an input with marked and unmarked cells of one keyword. -/
theorem C18_overview_within_detail_witness :
    ∃ O, ReadCSV latin1Tables overviewOpts "WG1,WG2\n*dns,tls\nDNS*,*dns\n".toList = .ok O
      ∧ (∀ k ∈ mapKeys O, k ∈ mapKeys
          [("Dns".toList, ["WG1".toList, "WG2".toList]), ("Tls".toList, ["WG2".toList]),
            ("DNS".toList, ["WG1".toList])])
      ∧ (∀ k, (mapIndex O k).Sublist (mapIndex
          [("Dns".toList, ["WG1".toList, "WG2".toList]), ("Tls".toList, ["WG2".toList]),
            ("DNS".toList, ["WG1".toList])] k))
      ∧ ((∀ records, ReadAll 0 "WG1,WG2\n*dns,tls\nDNS*,*dns\n".toList = .ok records →
            ∀ p ∈ dataCells records, p.2 ≠ [] → '*' ∈ p.2) →
          O = [("Dns".toList, ["WG1".toList, "WG2".toList]), ("Tls".toList, ["WG2".toList]),
            ("DNS".toList, ["WG1".toList])]) :=
  C18_overview_within_detail latin1Tables detailOpts overviewOpts
    "WG1,WG2\n*dns,tls\nDNS*,*dns\n".toList _ rfl rfl (by decide)

/-! ## The shape of the mapping -/

/-- Appending one working group to a value adds one entry to the map. -/
theorem entryCount_mapAssign (kw : KwMap) (k wg : GoString) :
    entryCount (mapAssign kw k (mapIndex kw k ++ [wg])) = entryCount kw + 1 := by
  induction kw with
  | nil => simp [mapAssign, mapIndex, entryCount]
  | cons p rest ih =>
    obtain ⟨k0, v0⟩ := p
    simp only [entryCount] at ih
    by_cases h0 : k0 = k
    · simp [mapAssign, mapIndex, entryCount, h0]
      omega
    · simp only [mapAssign, mapIndex, h0, if_false, entryCount, List.map_cons, List.sum_cons, ih]
      omega

/-- The pairs of a map after an assignment: those before, or the pair assigned. -/
theorem mem_mapAssign (kw : KwMap) (k : GoString) (v : List GoString) (q : GoString × List GoString)
    (hq : q ∈ mapAssign kw k v) : q ∈ kw ∨ q = (k, v) := by
  induction kw with
  | nil =>
    simp only [mapAssign, List.mem_singleton] at hq
    exact Or.inr hq
  | cons p rest ih =>
    obtain ⟨k0, v0⟩ := p
    by_cases h0 : k0 = k
    · simp only [mapAssign, h0, if_true, List.mem_cons] at hq
      rcases hq with hq | hq
      · exact Or.inr hq
      · exact Or.inl (List.mem_cons_of_mem _ hq)
    · simp only [mapAssign, h0, if_false, List.mem_cons] at hq
      rcases hq with hq | hq
      · exact Or.inl (hq ▸ List.mem_cons_self _ _)
      · rcases ih hq with h1 | h1
        · exact Or.inl (List.mem_cons_of_mem _ h1)
        · exact Or.inr h1

/-- A normalised keyword is not the empty string. -/
theorem normaliseKeyword_ne_nil (U : CaseTables) (cell k : GoString)
    (h : normaliseKeyword U cell = some k) : k ≠ [] := by
  obtain ⟨hne, hcase⟩ := normaliseKeyword_some U cell k h
  rcases hcase with rfl | rfl
  · exact hne
  · intro h0
    have := congrArg List.length h0
    simp [Title, titleFrom_length, ToLower] at this
    exact hne this

/-- The loops keep keys and values non-empty, and add one entry per included cell. -/
theorem cellsLoop_wellformed (U : CaseTables) (opts : options) (records : List (List GoString))
    (cells : List (Nat × GoString)) :
    ∀ (kw m : KwMap), cellsLoop U opts records cells kw = .ok m →
      ((∀ q ∈ kw, q.1 ≠ [] ∧ q.2 ≠ []) → ∀ q ∈ m, q.1 ≠ [] ∧ q.2 ≠ [])
      ∧ entryCount m = entryCount kw + (cells.filter (fun p => specIncluded opts p.2)).length := by
  induction cells with
  | nil =>
    intro kw m h
    simp only [cellsLoop] at h
    cases h
    simp
  | cons p rest ih =>
    intro kw m h
    simp only [cellsLoop] at h
    cases hs : cellStep U opts records kw p.1 p.2 with
    | error e => simp [hs] at h
    | ok kw' =>
      simp only [hs] at h
      obtain ⟨ihw, ihc⟩ := ih kw' m h
      rcases cellStep_ok U opts records kw kw' p.1 p.2 hs with ⟨hinc, rfl⟩ | ⟨hinc, k, wg, hk, _, rfl⟩
      · exact ⟨ihw, by rw [ihc]; simp [List.filter_cons, hinc]⟩
      · refine ⟨fun hkw => ihw ?_, ?_⟩
        · intro q hq
          rcases mem_mapAssign kw k _ q hq with h1 | rfl
          · exact hkw q h1
          · exact ⟨normaliseKeyword_ne_nil U p.2 k hk, by simp⟩
        · rw [ihc, entryCount_mapAssign]
          simp [List.filter_cons, hinc]
          omega

/-- C19: every mapping that `ReadCSV` returns, in either mode and on any
input, has no empty-string key and no key whose list of working groups is
empty, and the number of its working-group entries over all keys is the
number of included data cells. -/
theorem C19_mapping_well_formed (U : CaseTables) (opts : options) (text : GoString) (m : KwMap)
    (h : ReadCSV U opts text = .ok m) :
    ∃ records, ReadAll 0 text = .ok records
      ∧ [] ∉ mapKeys m
      ∧ (∀ q ∈ m, q.2 ≠ [])
      ∧ (∀ k ∈ mapKeys m, mapIndex m k ≠ [])
      ∧ entryCount m = ((dataCells records).filter (fun p => specIncluded opts p.2)).length := by
  simp only [ReadCSV] at h
  cases hr : ReadAll 0 text with
  | error e => simp [hr] at h
  | ok records =>
    simp only [hr, pivot_eq_cellsLoop] at h
    obtain ⟨hw, hc⟩ := cellsLoop_wellformed U opts records _ [] m h
    have hw' := hw (by simp)
    obtain ⟨_, hkeys, _⟩ := cellsLoop_spec U opts records _ [] m h
    obtain hidx := cellsLoop_index U opts records _ [] m h
    refine ⟨records, rfl, ?_, fun q hq => (hw' q hq).2, ?_, by simpa [entryCount] using hc⟩
    · intro hmem
      obtain ⟨q, hq, hq1⟩ := List.mem_map.1 hmem
      exact (hw' q hq).1 hq1
    · intro k hk
      rcases (hkeys k).1 hk with h0 | ⟨p, hp, hinc, hn⟩
      · simp [mapKeys] at h0
      · obtain ⟨_, wg, _, hwg⟩ := cellsLoop_included U opts records _ [] m h p hp hinc
        rw [hidx k]
        intro hnil
        have hmem : wg ∈ (cellsOfKey U opts k (dataCells records)).filterMap
            (fun p => headerAt records p.1) := by
          refine List.mem_filterMap.2 ⟨p, ?_, hwg⟩
          simp [cellsOfKey, hp, hinc, hn]
        simp only [mapIndex, List.nil_append] at hnil
        rw [hnil] at hmem
        cases hmem

/-- C19, witness: the statement at the input of the test, in detail mode. -/
theorem C19_mapping_well_formed_witness :
    ∃ records, ReadAll 0 testInput = .ok records
      ∧ [] ∉ mapKeys testReturned
      ∧ (∀ q ∈ testReturned, q.2 ≠ [])
      ∧ (∀ k ∈ mapKeys testReturned, mapIndex testReturned k ≠ [])
      ∧ entryCount testReturned
        = ((dataCells records).filter (fun p => specIncluded detailOpts p.2)).length :=
  C19_mapping_well_formed latin1Tables detailOpts testInput testReturned (by decide)

/-! ## The list printed by the template -/

/-- One anchor as the template prints it: a space, then the anchor. -/
theorem anchor_text (group : GoString) :
    textAnchorOpen ++ group ++ textAnchorMid ++ group ++ textAnchorClose
      = " ".toList ++ specAnchor group := by
  have h1 : textAnchorOpen = " ".toList ++ "<a href=\"https://datatracker.ietf.org/wg/".toList := by
    decide
  have h2 : textAnchorMid = "/about/\">".toList := by decide
  have h3 : textAnchorClose = "</a>".toList := by decide
  rw [h1, h2, h3]
  simp [specAnchor, List.append_assoc]

/-- After the first group, the template prints a comma before every anchor. -/
theorem executeWGs_succ (gs : List GoString) :
    ∀ index, executeWGs (index + 1) gs
      = gs.flatMap (fun group => ",".toList ++ (" ".toList ++ specAnchor group)) := by
  induction gs with
  | nil => intro index; simp [executeWGs]
  | cons g rest ih =>
    intro index
    have hc : textComma = ",".toList := by decide
    simp only [executeWGs, List.flatMap_cons, ih (index + 1)]
    rw [if_pos (by omega), hc, ← anchor_text g]
    simp [List.append_assoc]

/-- C14: for every entry with keyword `k` and working groups `g1` to `gn`,
`n ≥ 1`, the list item that the template prints is the opening of the item,
the bold label `<b>k</b>`, a dash, the anchor of `g1` after a space, and for
every later group in order a comma, a space and its anchor, then the closing
of the item: one comma before every anchor but the first, none after the last;
`k` and the groups are printed as they are. The items of all entries, in
order, are what the body prints between its fixed texts. -/
theorem C14_list_item_format (k g : GoString) (gs : List GoString) :
    executeItem ⟨k, g :: gs⟩ =
      "\n\t\t\t\t  <li>\n\t\t\t\t\t  ".toList
        ++ ("<b>".toList ++ k ++ "</b>".toList)
        ++ " -\n\t\t\t\t\t  ".toList
        ++ (" ".toList ++ specAnchor g)
        ++ gs.flatMap (fun group => ",".toList ++ (" ".toList ++ specAnchor group))
        ++ "\n\t\t\t\t  </li>\n\t\t\t".toList
    ∧ (∀ result : List kwmap, result ≠ [] →
        executeBody result =
          textBeforeWith ++ (textBeforeRange ++ result.flatMap executeItem ++ textAfterRange)
            ++ textAfterWith) := by
  constructor
  · have h1 : textItemOpen = "\n\t\t\t\t  <li>\n\t\t\t\t\t  ".toList ++ "<b>".toList := by decide
    have h2 : textAfterKeyword = "</b>".toList ++ " -\n\t\t\t\t\t  ".toList := by decide
    have h3 : textItemClose = "\n\t\t\t\t  </li>\n\t\t\t".toList := by decide
    simp only [executeItem, executeWGs, executeWGs_succ gs 0]
    rw [h1, h2, h3, if_neg (by simp)]
    have ha : ∀ tail, textAnchorOpen ++ (g ++ (textAnchorMid ++ (g ++ (textAnchorClose ++ tail))))
        = " ".toList ++ (specAnchor g ++ tail) := by
      intro tail
      have := congrArg (fun x => x ++ tail) (anchor_text g)
      simpa only [List.append_assoc] using this
    simp only [List.append_assoc, List.nil_append]
    rw [ha]
  · intro result hne
    simp [executeBody, hne]

end IetfKeywords
